import Mathlib

/-!
# gexbot: the package registry of `main.go`

A shallow embedding of `Registry` (`tryLoad`, `addPackage`, `writeToDisk`,
`CheckAndAddPackage`, `checkSize`) together with the parts of its collaborators
that decide its behaviour: the answers of the content store client
(`api.Shell`), the host file system, and `encoding/json` on the one type the
registry serialises, `map[string]*Package`.

Conventions.
* A Go `string` is a sequence of bytes (`GoString`); nothing makes it valid UTF-8.
* A Go `error` is `Option Err`, with `none` for `nil`.
* Go `int` is 64 bits wide; every `+` on it is followed by `wrapInt`.
* Every call that leaves the process (store, file system, log) appends one
  `Event` to `State.trace`, in program order.
* The mutex `lk` is not modelled: one call runs at a time.
* `*Package` values held by the map are never `nil`: the only writer is
  `addPackage`, which `main` calls with a fresh `&Package`.
-/

namespace Gexbot

/-! ## Data -/

/-- Go `string`: an immutable sequence of bytes. -/
abbrev GoString := List (Fin 256)

/-- The bytes of an ASCII literal. -/
def ascii (s : String) : GoString := s.toList.map (fun c => Fin.ofNat c.toNat)

/-- `const regname = "registry.json"`. -/
def regname : GoString := ascii "registry.json"

/-- `const maxPackageSize = 512000`. -/
def maxPackageSize : Int := 512000

/-- `type Package struct { Author string; Hash string }`. -/
structure Package where
  Author : GoString
  Hash : GoString
deriving DecidableEq

/-- `api.LsLink`, restricted to the two fields this program reads. -/
structure LsLink where
  Hash : GoString
  Name : GoString
deriving DecidableEq

/-- Error values. The first three come from collaborators, the next three are
the `fmt.Errorf` values built in `CheckAndAddPackage`. -/
inductive Err where
  /-- an error handed back by the content store client -/
  | store (msg : GoString)
  /-- `json.Decoder.Decode` into `gx.Package` failed -/
  | manifest (msg : GoString)
  /-- an error of `os.Create`, `os.Open` or of writing the file -/
  | os (msg : GoString)
  /-- "expected just the package dir under given hash" -/
  | expectedPackageDir
  /-- "no package file found in given hash" -/
  | noPackageFile
  /-- "package too large! must be under 512000 bytes" -/
  | tooLarge
deriving DecidableEq

/-- What `Log` and `Error` (package `stump`) are called with. -/
inductive Msg where
  /-- `Log("package listed...")` -/
  | packageListed
  /-- `Log("package name: ", elems[0].Name)` -/
  | packageName (name : GoString)
  /-- `Log("package size: %d", size)` -/
  | packageSize (size : Int)
  /-- `Error("error unpinning old hash for %s - %s : %s", name, val, err)` -/
  | unpinFailed (name : GoString) (val : Package) (err : Err)
deriving DecidableEq

/-- One call that leaves the process. -/
inductive Event where
  | list (hash : GoString)
  | blockStat (hash : GoString)
  | cat (hash : GoString)
  | pin (hash : GoString)
  | unpin (hash : GoString)
  | create (fname : GoString)
  | write (fname : GoString) (data : GoString)
  | openFile (fname : GoString)
  | log (m : Msg)
  | error (m : Msg)
deriving DecidableEq

/-- The content store client `*api.Shell`. The store is content addressed, so
what it answers for a lookup is a function of the address; whether a pin or an
unpin request fails is likewise given per address. An error of the client is
its message; the registry sees it as `Err.store`. -/
structure Shell where
  BlockStat : GoString → Except GoString (GoString × Int)
  Cat : GoString → Except GoString GoString
  Pin : GoString → Option GoString
  Unpin : GoString → Option GoString
  List : GoString → Except GoString (List LsLink)

/-- Everything outside the registry that the code calls into. -/
structure Env where
  sh : Shell
  /-- `json.NewDecoder(rc).Decode(&gxpkg)` for the external type `gx.Package` -/
  gxDecode : GoString → Option GoString
  /-- failure of `os.Create` -/
  Create : GoString → Option GoString
  /-- failure of writing the encoded bytes, after that many bytes -/
  Write : GoString → GoString → Option (Nat × GoString)
  /-- failure of `os.Open` on a file that exists -/
  Open : GoString → Option GoString

/-- Go `map[string]*Package`: a finite map with one entry per key. -/
abbrev PkgMap := AList (fun _ : GoString => Package)

/-- The registry's memory (`pkgs`) and the world around it. -/
structure State where
  pkgs : PkgMap
  /-- the addresses the store currently retains -/
  pinned : List GoString
  files : GoString → Option GoString
  trace : List Event

/-- Record one call. -/
def State.emit (s : State) (e : Event) : State :=
  { s with trace := s.trace ++ [e] }

/-- Two's complement wrap-around of Go's 64-bit `int`. -/
def wrapInt (x : Int) : Int := (x + 9223372036854775808) % 18446744073709551616 - 9223372036854775808

/-! ## `encoding/json` on `map[string]*Package` -/

/-- `utf8.RuneError`, U+FFFD. -/
def RuneError : Nat := 0xFFFD

/-- The table `first` of package `utf8` for a leading byte of a multi-byte
sequence: the length of the sequence and the range accepted for the second
byte. `none` for ASCII and for bytes that start no sequence. -/
def leading (s0 : Nat) : Option (Nat × Nat × Nat) :=
  if 0xC2 ≤ s0 ∧ s0 ≤ 0xDF then some (2, 0x80, 0xBF)
  else if s0 = 0xE0 then some (3, 0xA0, 0xBF)
  else if 0xE1 ≤ s0 ∧ s0 ≤ 0xEC then some (3, 0x80, 0xBF)
  else if s0 = 0xED then some (3, 0x80, 0x9F)
  else if 0xEE ≤ s0 ∧ s0 ≤ 0xEF then some (3, 0x80, 0xBF)
  else if s0 = 0xF0 then some (4, 0x90, 0xBF)
  else if 0xF1 ≤ s0 ∧ s0 ≤ 0xF3 then some (4, 0x80, 0xBF)
  else if s0 = 0xF4 then some (4, 0x80, 0x8F)
  else none

/-- `utf8.DecodeRuneInString`: the first rune and its width in bytes;
`(RuneError, 1)` when the bytes start no valid encoding. Masks and shifts are
written as `%` and `*`. -/
def decodeRune (s : GoString) : Nat × Nat :=
  match s with
  | [] => (RuneError, 0)
  | s0 :: t =>
    match leading s0.val with
    | none => if s0.val < 0x80 then (s0.val, 1) else (RuneError, 1)
    | some (sz, lo, hi) =>
      if s.length < sz then (RuneError, 1) else
      match t with
      | [] => (RuneError, 1)
      | s1 :: t1 =>
        if s1.val < lo ∨ hi < s1.val then (RuneError, 1)
        else if sz ≤ 2 then (s0.val % 32 * 64 + s1.val % 64, 2)
        else
          match t1 with
          | [] => (RuneError, 1)
          | s2 :: t2 =>
            if s2.val < 0x80 ∨ 0xBF < s2.val then (RuneError, 1)
            else if sz ≤ 3 then (s0.val % 16 * 4096 + s1.val % 64 * 64 + s2.val % 64, 3)
            else
              match t2 with
              | [] => (RuneError, 1)
              | s3 :: _ =>
                if s3.val < 0x80 ∨ 0xBF < s3.val then (RuneError, 1)
                else (s0.val % 8 * 262144 + s1.val % 64 * 4096 + s2.val % 64 * 64 + s3.val % 64, 4)

/-- `utf8.EncodeRune`: surrogates and values above U+10FFFF are written as
U+FFFD. -/
def encodeRune (r : Nat) : GoString :=
  if r ≤ 0x7F then [Fin.ofNat r]
  else if r ≤ 0x7FF then [Fin.ofNat (0xC0 + r / 64), Fin.ofNat (0x80 + r % 64)]
  else if 0x10FFFF < r ∨ (0xD800 ≤ r ∧ r ≤ 0xDFFF) then [0xEF, 0xBF, 0xBD]
  else if r ≤ 0xFFFF then
    [Fin.ofNat (0xE0 + r / 4096), Fin.ofNat (0x80 + r / 64 % 64), Fin.ofNat (0x80 + r % 64)]
  else
    [Fin.ofNat (0xF0 + r / 262144), Fin.ofNat (0x80 + r / 4096 % 64),
      Fin.ofNat (0x80 + r / 64 % 64), Fin.ofNat (0x80 + r % 64)]

/-- `utf8.ValidString`, with fuel for the loop over the runes. -/
def validUTF8Loop : Nat → GoString → Bool
  | 0, s => s.isEmpty
  | fuel + 1, s =>
    match s with
    | [] => true
    | _ :: _ =>
      let (c, size) := decodeRune s
      if c = RuneError ∧ size = 1 then false else validUTF8Loop fuel (s.drop size)

/-- `utf8.ValidString`. -/
def validUTF8 (s : GoString) : Bool := validUTF8Loop s.length s

/-- The digit table `hex = "0123456789abcdef"`. -/
def hexDigit (n : Nat) : Fin 256 :=
  if n < 10 then Fin.ofNat (0x30 + n) else Fin.ofNat (0x57 + n)

/-- The table `htmlSafeSet`: the ASCII bytes the encoder copies unchanged. -/
def htmlSafe (b : Fin 256) : Bool :=
  decide (0x20 ≤ b.val) && decide (b.val < 0x80) && decide (b ≠ 0x22) && decide (b ≠ 0x26)
    && decide (b ≠ 0x3C) && decide (b ≠ 0x3E) && decide (b ≠ 0x5C)

/-- What the encoder writes for an ASCII byte outside `htmlSafeSet`. -/
def escapeByte (b : Fin 256) : GoString :=
  if b = 0x5C ∨ b = 0x22 then [0x5C, b]
  else if b = 0x08 then [0x5C, 0x62]
  else if b = 0x0C then [0x5C, 0x66]
  else if b = 0x0A then [0x5C, 0x6E]
  else if b = 0x0D then [0x5C, 0x72]
  else if b = 0x09 then [0x5C, 0x74]
  else [0x5C, 0x75, 0x30, 0x30, hexDigit (b.val / 16), hexDigit (b.val % 16)]

/-- The loop of the encoder's `appendString` (HTML escaping on, as
`json.NewEncoder` has it), with fuel for the loop over the bytes. -/
def appendStringLoop : Nat → GoString → GoString
  | 0, _ => []
  | fuel + 1, src =>
    match src with
    | [] => []
    | b :: rest =>
      if b.val < 0x80 then
        (if htmlSafe b then [b] else escapeByte b) ++ appendStringLoop fuel rest
      else
        let (c, size) := decodeRune src
        if c = RuneError ∧ size = 1 then
          [0x5C, 0x75, 0x66, 0x66, 0x66, 0x64] ++ appendStringLoop fuel rest
        else if c = 0x2028 ∨ c = 0x2029 then
          [0x5C, 0x75, 0x32, 0x30, 0x32, hexDigit (c % 16)] ++ appendStringLoop fuel (src.drop size)
        else
          src.take size ++ appendStringLoop fuel (src.drop size)

/-- A Go string as a JSON string literal. -/
def appendString (src : GoString) : GoString :=
  [0x22] ++ appendStringLoop src.length src ++ [0x22]

/-- The encoding of one `*Package`: the exported fields in declaration order. -/
def encodePackage (p : Package) : GoString :=
  [0x7B] ++ appendString (ascii "Author") ++ [0x3A] ++ appendString p.Author ++ [0x2C]
    ++ appendString (ascii "Hash") ++ [0x3A] ++ appendString p.Hash ++ [0x7D]

/-- The members of the encoded object, each after the first led by a comma. -/
def encodeMembers : List (Sigma fun _ : GoString => Package) → GoString
  | [] => []
  | [e] => appendString e.1 ++ [0x3A] ++ encodePackage e.2
  | e :: e2 :: es =>
    appendString e.1 ++ [0x3A] ++ encodePackage e.2 ++ [0x2C] ++ encodeMembers (e2 :: es)

/-- `json.NewEncoder(fi).Encode(r.pkgs)`: the map as one JSON object, its keys
in increasing byte order, followed by a newline. -/
def encodePkgs (m : PkgMap) : GoString :=
  [0x7B] ++ encodeMembers (m.entries.insertionSort (fun a b => a.1 ≤ b.1)) ++ [0x7D, 0x0A]

/-- The decoder skips space, tab, carriage return and line feed. -/
def skipSpace : GoString → GoString
  | [] => []
  | b :: rest =>
    if b = 0x20 ∨ b = 0x09 ∨ b = 0x0D ∨ b = 0x0A then skipSpace rest else b :: rest

/-- The value of a hexadecimal digit. -/
def hexVal (b : Fin 256) : Option Nat :=
  if 0x30 ≤ b.val ∧ b.val ≤ 0x39 then some (b.val - 0x30)
  else if 0x61 ≤ b.val ∧ b.val ≤ 0x66 then some (b.val - 0x57)
  else if 0x41 ≤ b.val ∧ b.val ≤ 0x46 then some (b.val - 0x37)
  else none

/-- The decoder's `getu4`: the rune of a leading `\uXXXX`. -/
def getu4 (s : GoString) : Option Nat :=
  match s with
  | b0 :: b1 :: h0 :: h1 :: h2 :: h3 :: _ =>
    if b0 = 0x5C ∧ b1 = 0x75 then
      match hexVal h0, hexVal h1, hexVal h2, hexVal h3 with
      | some a, some b, some c, some d => some (a * 4096 + b * 256 + c * 16 + d)
      | _, _, _, _ => none
    else none
  | _ => none

/-- The decoder's `unquote`, reading the body of a string literal up to its
closing quote: the decoded string and the input after the quote. `none` when
the literal is not well formed. -/
def unquoteLoop : Nat → GoString → Option (GoString × GoString)
  | 0, _ => none
  | fuel + 1, s =>
    match s with
    | [] => none
    | c :: rest =>
      if c = 0x22 then some ([], rest)
      else if c = 0x5C then
        match rest with
        | [] => none
        | e :: rest2 =>
          if e = 0x22 ∨ e = 0x5C ∨ e = 0x2F then
            (unquoteLoop fuel rest2).map (fun r => (e :: r.1, r.2))
          else if e = 0x62 then (unquoteLoop fuel rest2).map (fun r => (0x08 :: r.1, r.2))
          else if e = 0x66 then (unquoteLoop fuel rest2).map (fun r => (0x0C :: r.1, r.2))
          else if e = 0x6E then (unquoteLoop fuel rest2).map (fun r => (0x0A :: r.1, r.2))
          else if e = 0x72 then (unquoteLoop fuel rest2).map (fun r => (0x0D :: r.1, r.2))
          else if e = 0x74 then (unquoteLoop fuel rest2).map (fun r => (0x09 :: r.1, r.2))
          else if e = 0x75 then
            match getu4 s with
            | none => none
            | some rr =>
              let after := s.drop 6
              if 0xD800 ≤ rr ∧ rr < 0xE000 then
                match getu4 after with
                | some rr1 =>
                  if rr < 0xDC00 ∧ 0xDC00 ≤ rr1 ∧ rr1 < 0xE000 then
                    (unquoteLoop fuel (after.drop 6)).map (fun r =>
                      (encodeRune (0x10000 + (rr - 0xD800) * 1024 + (rr1 - 0xDC00)) ++ r.1, r.2))
                  else (unquoteLoop fuel after).map (fun r => (encodeRune RuneError ++ r.1, r.2))
                | none => (unquoteLoop fuel after).map (fun r => (encodeRune RuneError ++ r.1, r.2))
              else (unquoteLoop fuel after).map (fun r => (encodeRune rr ++ r.1, r.2))
          else none
      else if c.val < 0x20 then none
      else if c.val < 0x80 then (unquoteLoop fuel rest).map (fun r => (c :: r.1, r.2))
      else
        let (rr, size) := decodeRune s
        (unquoteLoop fuel (s.drop size)).map (fun r => (encodeRune rr ++ r.1, r.2))

/-- A JSON string literal at the head of the input. -/
def parseString (s : GoString) : Option (GoString × GoString) :=
  match s with
  | [] => none
  | c :: rest => if c = 0x22 then unquoteLoop rest.length rest else none

/-- The members of a JSON object decoded into a `Package`, from the first key
on: a member named `Author` or `Hash` with a string value sets that field, the
last one winning. `none` outside this fragment (other keys, other values,
malformed input). -/
def parseFields : Nat → GoString → Package → Option (Package × GoString)
  | 0, _, _ => none
  | fuel + 1, s, p =>
    match parseString s with
    | none => none
    | some (key, s1) =>
      match skipSpace s1 with
      | [] => none
      | c :: s2 =>
        if c ≠ 0x3A then none else
        match parseString (skipSpace s2) with
        | none => none
        | some (v, s3) =>
          let next : Option Package :=
            if key = ascii "Author" then some { p with Author := v }
            else if key = ascii "Hash" then some { p with Hash := v }
            else none
          match next, skipSpace s3 with
          | some q, d :: s4 =>
            if d = 0x7D then some (q, s4)
            else if d = 0x2C then parseFields fuel (skipSpace s4) q
            else none
          | _, _ => none

/-- A JSON object decoded into a fresh `Package`. -/
def parsePackage (s : GoString) : Option (Package × GoString) :=
  match s with
  | [] => none
  | c :: s1 =>
    if c ≠ 0x7B then none else
    match skipSpace s1 with
    | [] => none
    | d :: s2 =>
      if d = 0x7D then some ({ Author := [], Hash := [] }, s2)
      else parseFields s1.length (d :: s2) { Author := [], Hash := [] }

/-- The members of the top-level object decoded into the map, from the first
key on: each member stores a fresh `Package` under its key. -/
def parseEntries : Nat → GoString → PkgMap → Option (PkgMap × GoString)
  | 0, _, _ => none
  | fuel + 1, s, m =>
    match parseString s with
    | none => none
    | some (key, s1) =>
      match skipSpace s1 with
      | [] => none
      | c :: s2 =>
        if c ≠ 0x3A then none else
        match parsePackage (skipSpace s2) with
        | none => none
        | some (p, s3) =>
          match skipSpace s3 with
          | [] => none
          | d :: s4 =>
            if d = 0x7D then some (m.insert key p, s4)
            else if d = 0x2C then parseEntries fuel (skipSpace s4) (m.insert key p)
            else none

/-- `json.NewDecoder(fi).Decode(&r.pkgs)` on the file's bytes, for a file whose
first JSON value is an object of objects with string members `Author` and
`Hash`: the map after decoding, entries already present being kept unless
overwritten. `none` for any other file content, which this development does not
model. -/
def decodePkgs (data : GoString) (m : PkgMap) : Option PkgMap :=
  match skipSpace data with
  | [] => none
  | c :: s1 =>
    if c ≠ 0x7B then none else
    match skipSpace s1 with
    | [] => none
    | d :: s2 =>
      if d = 0x7D then some m
      else (parseEntries s1.length (d :: s2) m).map (fun r => r.1)

/-! ## The registry -/

/-- `r.sh.Pin(hash)`: on success the address is in the retained set. -/
def doPin (sh : Shell) (hash : GoString) (s : State) : Option Err × State :=
  let s1 := s.emit (.pin hash)
  match sh.Pin hash with
  | some e => (some (.store e), s1)
  | none => (none, { s1 with pinned := if hash ∈ s1.pinned then s1.pinned else hash :: s1.pinned })

/-- `r.sh.Unpin(hash)`: on success the address is no longer in the retained set. -/
def doUnpin (sh : Shell) (hash : GoString) (s : State) : Option Err × State :=
  let s1 := s.emit (.unpin hash)
  match sh.Unpin hash with
  | some e => (some (.store e), s1)
  | none => (none, { s1 with pinned := s1.pinned.filter (fun h => h ≠ hash) })

/-- `Registry.writeToDisk`. `os.Create` truncates the file; the encoder then
writes the whole map in one piece. -/
def writeToDisk (env : Env) (fname : GoString) (s : State) : Option Err × State :=
  let s1 := s.emit (.create fname)
  match env.Create fname with
  | some e => (some (.os e), s1)
  | none =>
    let data := encodePkgs s.pkgs
    let s2 := s1.emit (.write fname data)
    match env.Write fname data with
    | some (n, e) => (some (.os e), { s2 with files := Function.update s2.files fname (some (data.take n)) })
    | none => (none, { s2 with files := Function.update s2.files fname (some data) })

/-- `Registry.tryLoad`. The outer `none` is a file whose decoding is not
modelled (see `decodePkgs`). -/
def tryLoad (env : Env) (fname : GoString) (s : State) : Option (Option Err × State) :=
  let s1 := s.emit (.openFile fname)
  match s.files fname with
  | none => some (none, s1)
  | some data =>
    match env.Open fname with
    | some e => some (some (.os e), s1)
    | none => (decodePkgs data s1.pkgs).map (fun m => (none, { s1 with pkgs := m }))

/-- `Registry.addPackage`. The error of `Pin` is assigned to `err` and not read
before `err` is assigned again from `writeToDisk`. -/
def addPackage (env : Env) (name : GoString) (pkg : Package) (s : State) : Option Err × State :=
  let s1 := (doPin env.sh pkg.Hash s).2
  let s2 :=
    match s1.pkgs.lookup name with
    | some val =>
      match doUnpin env.sh val.Hash s1 with
      | (some e, s') => s'.emit (.error (.unpinFailed name val e))
      | (none, s') => s'
    | none => s1
  let s3 := { s2 with pkgs := s2.pkgs.insert name pkg }
  writeToDisk env regname s3

/-- The body of the loop `for _, l := range links` of `checkSize`, given the
recursive call. -/
def sumLinks (rec : GoString → State → Option ((Int × Option Err) × State)) :
    List LsLink → Int → State → Option ((Int × Option Err) × State)
  | [], sum, s => some ((sum, none), s)
  | l :: ls, sum, s =>
    match rec l.Hash s with
    | none => none
    | some ((_, some e), s1) => some ((0, some e), s1)
    | some ((n, none), s1) => sumLinks rec ls (wrapInt (sum + n)) s1

/-- `Registry.checkSize`, with fuel for the depth of the recursion: `none` when
the fuel does not suffice. -/
def checkSize (sh : Shell) : Nat → GoString → State → Option ((Int × Option Err) × State)
  | 0, _, _ => none
  | fuel + 1, hash, s =>
    let s1 := s.emit (.blockStat hash)
    match sh.BlockStat hash with
    | .error e => some ((0, some (.store e)), s1)
    | .ok (_, size) =>
      let sum := wrapInt (0 + size)
      let s2 := s1.emit (.list hash)
      match sh.List hash with
      | .error e => some ((0, some (.store e)), s2)
      | .ok links => sumLinks (checkSize sh fuel) links sum s2

/-- The loop of `CheckAndAddPackage` that looks for `package.json`: the hash of
the first link of that name, the empty string when there is none. -/
def findPackageFile : List LsLink → GoString
  | [] => []
  | l :: ls => if l.Name = ascii "package.json" then l.Hash else findPackageFile ls

/-- `Registry.CheckAndAddPackage`; `fuel` is handed to `checkSize`, and the
result is `none` when `checkSize` does not return within it. -/
def CheckAndAddPackage (env : Env) (fuel : Nat) (name : GoString) (pkg : Package) (s : State) :
    Option (Option Err × State) :=
  let s1 := s.emit (.list pkg.Hash)
  match env.sh.List pkg.Hash with
  | .error e => some (some (.store e), s1)
  | .ok elems =>
    let s2 := s1.emit (.log .packageListed)
    match elems with
    | [e0] =>
      let s3 := s2.emit (.list e0.Hash)
      match env.sh.List e0.Hash with
      | .error e => some (some (.store e), s3)
      | .ok inpkg =>
        let s4 := s3.emit (.log (.packageName e0.Name))
        let pkgfile := findPackageFile inpkg
        if pkgfile = [] then some (some .noPackageFile, s4)
        else
          let s5 := s4.emit (.cat pkgfile)
          match env.sh.Cat pkgfile with
          | .error e => some (some (.store e), s5)
          | .ok rc =>
            match env.gxDecode rc with
            | some e => some (some (.manifest e), s5)
            | none =>
              match checkSize env.sh fuel pkg.Hash s5 with
              | none => none
              | some ((_, some e), s6) => some (some e, s6)
              | some ((size, none), s6) =>
                let s7 := s6.emit (.log (.packageSize size))
                if size > maxPackageSize then some (some .tooLarge, s7)
                else some (addPackage env name pkg s7)
    | _ => some (some .expectedPackageDir, s2)

/-! ## Vocabulary of the statements -/

/-- Record several calls, in order. -/
def State.append (s : State) (evs : List Event) : State :=
  { s with trace := s.trace ++ evs }

/-- The error, if any, that `writeToDisk` reports when it writes `data` to
`fname`: that of `os.Create`, else that of the write. -/
def writeError (env : Env) (fname data : GoString) : Option Err :=
  match env.Create fname with
  | some m => some (.os m)
  | none =>
    match env.Write fname data with
    | some (_, m) => some (.os m)
    | none => none

/-- A call that changes what the store retains or what is on disk. -/
def Event.isMutation : Event → Bool
  | .pin _ => true
  | .unpin _ => true
  | .create _ => true
  | .write _ _ => true
  | _ => false

/-- A request to unpin. -/
def Event.isUnpin : Event → Bool
  | .unpin _ => true
  | _ => false

/-- A read of the content store. -/
def Event.isLookup : Event → Bool
  | .list _ => true
  | .blockStat _ => true
  | .cat _ => true
  | _ => false

/-- A line of log output. -/
def Event.isReport : Event → Bool
  | .log _ => true
  | .error _ => true
  | _ => false

/-- Pin accounting: the hash of every entry of the registry is retained by the
store. -/
def pinsCoverEntries (s : State) : Bool :=
  s.pkgs.entries.all (fun e => decide (e.2.Hash ∈ s.pinned))

/-- The local size the store reports for an object (`0` when the lookup fails). -/
def localSize (sh : Shell) (hash : GoString) : Int :=
  match sh.BlockStat hash with
  | .ok (_, size) => size
  | .error _ => 0

/-- The child links the store lists for an object (none when the lookup fails). -/
def linksOf (sh : Shell) (hash : GoString) : List LsLink :=
  match sh.List hash with
  | .ok links => links
  | .error _ => []

/-- The link graph: `c` is the target of one of the links listed for `p`. -/
def Child (sh : Shell) (c p : GoString) : Prop :=
  ∃ links, sh.List p = .ok links ∧ ∃ l ∈ links, l.Hash = c

/-- The objects reachable from `root` along links, `root` included. -/
def Reach (sh : Shell) (root : GoString) : GoString → Prop :=
  Relation.ReflTransGen (fun p c => Child sh c p) root

/-- The end object of every link path that starts at `hash` and follows fewer
than `depth` links, the empty path first and then the paths through each link in
listing order. An object at the end of `k` paths occurs `k` times. -/
def pathEnds (sh : Shell) : Nat → GoString → List GoString
  | 0, _ => []
  | depth + 1, hash => hash :: (linksOf sh hash).flatMap (fun l => pathEnds sh depth l.Hash)

/-- The two lookups `checkSize` makes on an object. -/
def lookupsOf (hash : GoString) : List Event := [.blockStat hash, .list hash]

/-- The walk of `checkSize` without the state: the pair it returns and the
lookups it makes. -/
def walkLinks (rec : GoString → Option ((Int × Option Err) × List Event)) :
    List LsLink → Int → Option ((Int × Option Err) × List Event)
  | [], sum => some ((sum, none), [])
  | l :: ls, sum =>
    match rec l.Hash with
    | none => none
    | some ((_, some e), evs) => some ((0, some e), evs)
    | some ((n, none), evs) =>
      (walkLinks rec ls (wrapInt (sum + n))).map (fun r => (r.1, evs ++ r.2))

/-- The walk of `checkSize` without the state. -/
def walk (sh : Shell) : Nat → GoString → Option ((Int × Option Err) × List Event)
  | 0, _ => none
  | fuel + 1, hash =>
    match sh.BlockStat hash with
    | .error e => some ((0, some (.store e)), [.blockStat hash])
    | .ok (_, size) =>
      match sh.List hash with
      | .error e => some ((0, some (.store e)), [.blockStat hash, .list hash])
      | .ok links =>
        (walkLinks (walk sh fuel) links (wrapInt (0 + size))).map
          (fun r => (r.1, [.blockStat hash, .list hash] ++ r.2))

/-! ## An example store

A package root `hR` holding the directory `hD`, which holds the manifest `hM`
and two directories `hA` and `hB` that both hold the file `hC`. -/

def hR : GoString := ascii "QmRoot"
def hD : GoString := ascii "QmDir"
def hM : GoString := ascii "QmManifest"
def hA : GoString := ascii "QmA"
def hB : GoString := ascii "QmB"
def hC : GoString := ascii "QmC"

/-- The links of the example store; `none` for an address it does not hold. -/
def demoLinks (h : GoString) : Option (List LsLink) :=
  if h = hR then some [⟨hD, ascii "mypkg"⟩]
  else if h = hD then some [⟨hM, ascii "package.json"⟩, ⟨hA, ascii "a"⟩, ⟨hB, ascii "b"⟩]
  else if h = hA then some [⟨hC, ascii "c"⟩]
  else if h = hB then some [⟨hC, ascii "c"⟩]
  else if h = hM ∨ h = hC then some []
  else none

/-- The example store, with the local size of each object and whether pin and
unpin requests fail left open. -/
def demoShell (size : GoString → Int) (pinFails unpinFails : Bool) : Shell where
  BlockStat h :=
    match demoLinks h with
    | some _ => .ok (h, size h)
    | none => .error (ascii "not found")
  Cat h :=
    match demoLinks h with
    | some _ => .ok (ascii "manifest")
    | none => .error (ascii "not found")
  Pin _ := if pinFails then some (ascii "pin failed") else none
  Unpin _ := if unpinFails then some (ascii "not pinned") else none
  List h :=
    match demoLinks h with
    | some links => .ok links
    | none => .error (ascii "not found")

/-- An environment around a store: every manifest decodes, and the snapshot
file can be created or not. -/
def demoEnv (sh : Shell) (createFails : Bool) : Env where
  sh := sh
  gxDecode _ := none
  Create _ := if createFails then some (ascii "permission denied") else none
  Write _ _ := none
  Open _ := none

/-- An empty registry, nothing pinned, no file, nothing recorded. -/
def emptyState : State := ⟨∅, [], fun _ => none, []⟩

/-- Every object weighs 10 bytes, but for `hC`. -/
def sizeWith (c : Int) (h : GoString) : Int := if h = hC then c else 10

/-- A registry that maps `foo` to the directory `hA`, which is pinned. -/
def demoState : State :=
  ⟨(∅ : PkgMap).insert (ascii "foo") ⟨ascii "alice", hA⟩, [hA], fun _ => none, []⟩

/-- The calls `addPackage` makes between the pin and the snapshot: the unpin of
the old hash when the name has an entry, and the log line when that unpin fails. -/
def unpinEvents (env : Env) (name : GoString) (s : State) : List Event :=
  match s.pkgs.lookup name with
  | some old =>
    match env.sh.Unpin old.Hash with
    | some e => [.unpin old.Hash, .error (.unpinFailed name old (.store e))]
    | none => [.unpin old.Hash]
  | none => []

/-- The calls of `writeToDisk`. -/
def writeEvents (env : Env) (fname data : GoString) : List Event :=
  match env.Create fname with
  | some _ => [.create fname]
  | none => [.create fname, .write fname data]

/-- The lookup recorded by an event succeeded. -/
def lookupOk (sh : Shell) : Event → Prop
  | .blockStat a => ∃ x, sh.BlockStat a = .ok x
  | .list a => ∃ x, sh.List a = .ok x
  | _ => True

/-- The lookup recorded by an event failed, with message `m`. -/
def lookupFails (sh : Shell) (m : GoString) : Event → Prop
  | .blockStat a => sh.BlockStat a = .error m
  | .list a => sh.List a = .error m
  | _ => False

/-- How the pair returned by `checkSize` depends on the outcome of its lookups:
without an error every lookup made succeeded; with an error the size is `0`,
the last lookup made is the only one that failed, and the error is its error. -/
def ErrorRule (sh : Shell) (r : Int × Option Err) (evs : List Event) : Prop :=
  match r.2 with
  | none => ∀ ev ∈ evs, lookupOk sh ev
  | some e =>
    r.1 = 0 ∧ ∃ pre ev m, evs = pre ++ [ev] ∧ (∀ x ∈ pre, lookupOk sh x) ∧
      lookupFails sh m ev ∧ e = .store m

/-- Every lookup on an object reachable from `root` succeeds. -/
def LookupsSucceed (sh : Shell) (root : GoString) : Prop :=
  ∀ h, Reach sh root h → (∃ x, sh.BlockStat h = .ok x) ∧ ∃ links, sh.List h = .ok links

/-- The directory `hA` weighs 600000 bytes by itself, every other object 10. -/
def sizeRootBig (h : GoString) : Int := if h = hA then 600000 else 10

/-- The height of an object in the example store. -/
def demoRank (h : GoString) : Nat :=
  if h = hR then 3 else if h = hD then 2 else if h = hA ∨ h = hB then 1 else 0

/-- Names, authors and hashes of all entries are valid UTF-8. -/
def entriesValid (es : List (Sigma fun _ : GoString => Package)) : Prop :=
  ∀ e ∈ es, validUTF8 e.1 = true ∧ validUTF8 e.2.Author = true ∧ validUTF8 e.2.Hash = true

instance (es : List (Sigma fun _ : GoString => Package)) : Decidable (entriesValid es) := by
  unfold entriesValid
  infer_instance

/-- A registry whose only name is the single byte `0xFF`, which is not valid
UTF-8. -/
def badNameState : State :=
  ⟨(∅ : PkgMap).insert [0xFF] ⟨ascii "bob", hR⟩, [], fun _ => none, []⟩

/-! ## Basic facts -/

theorem State.emit_eq_append (s : State) (e : Event) : s.emit e = s.append [e] := rfl

theorem State.append_append (s : State) (a b : List Event) :
    (s.append a).append b = s.append (a ++ b) := by
  simp [State.append, List.append_assoc]

theorem State.append_nil (s : State) : s.append [] = s := by
  simp [State.append]

theorem sumLinks_eq_walkLinks (rec : GoString → State → Option ((Int × Option Err) × State))
    (rec0 : GoString → Option ((Int × Option Err) × List Event))
    (hrec : ∀ h s, rec h s = (rec0 h).map (fun r => (r.1, s.append r.2)))
    (links : List LsLink) (sum : Int) (s : State) :
    sumLinks rec links sum s = (walkLinks rec0 links sum).map (fun r => (r.1, s.append r.2)) := by
  induction links generalizing sum s with
  | nil => simp [sumLinks, walkLinks, State.append_nil]
  | cons l ls ih =>
    simp only [sumLinks, walkLinks, hrec]
    cases hr : rec0 l.Hash with
    | none => simp
    | some r =>
      obtain ⟨⟨n, oe⟩, evs⟩ := r
      cases oe with
      | some e => simp
      | none =>
        simp only [Option.map_some', ih]
        cases walkLinks rec0 ls (wrapInt (sum + n)) with
        | none => simp
        | some r2 => simp [State.append_append]

/-- The state only records the lookups of `checkSize`: its result and its
lookups are those of `walk`. -/
theorem checkSize_eq_walk (sh : Shell) (fuel : Nat) (hash : GoString) (s : State) :
    checkSize sh fuel hash s = (walk sh fuel hash).map (fun r => (r.1, s.append r.2)) := by
  induction fuel generalizing hash s with
  | zero => simp [checkSize, walk]
  | succ fuel ih =>
    simp only [checkSize, walk]
    cases sh.BlockStat hash with
    | error e => simp [State.emit_eq_append]
    | ok r =>
      obtain ⟨k, size⟩ := r
      simp only
      cases sh.List hash with
      | error e => simp [State.emit_eq_append, State.append_append]
      | ok links =>
        simp only [sumLinks_eq_walkLinks _ _ ih, State.emit_eq_append, State.append_append]
        cases walkLinks (walk sh fuel) links (wrapInt (0 + size)) with
        | none => simp
        | some r2 => simp [State.append_append]

theorem findPackageFile_of_find (inpkg : List LsLink) (l : LsLink)
    (h : inpkg.find? (fun l => decide (l.Name = ascii "package.json")) = some l) :
    findPackageFile inpkg = l.Hash := by
  induction inpkg with
  | nil => simp at h
  | cons a as ih =>
    by_cases ha : a.Name = ascii "package.json"
    · simp [List.find?, ha] at h
      subst h
      simp [findPackageFile, ha]
    · simp [List.find?, ha] at h
      simp [findPackageFile, ha, ih h]

theorem writeToDisk_fst (env : Env) (fname : GoString) (s : State) :
    (writeToDisk env fname s).1 = writeError env fname (encodePkgs s.pkgs) := by
  unfold writeToDisk writeError
  cases env.Create fname with
  | some m => rfl
  | none =>
    simp only
    cases env.Write fname (encodePkgs s.pkgs) with
    | some r => rfl
    | none => rfl

theorem writeToDisk_pkgs (env : Env) (fname : GoString) (s : State) :
    (writeToDisk env fname s).2.pkgs = s.pkgs := by
  unfold writeToDisk
  cases env.Create fname with
  | some m => rfl
  | none =>
    simp only
    cases env.Write fname (encodePkgs s.pkgs) with
    | some r => rfl
    | none => rfl

theorem writeToDisk_files (env : Env) (fname : GoString) (s : State)
    (h : writeError env fname (encodePkgs s.pkgs) = none) :
    (writeToDisk env fname s).2.files fname = some (encodePkgs s.pkgs) := by
  unfold writeError at h
  unfold writeToDisk
  cases hc : env.Create fname with
  | some m => simp [hc] at h
  | none =>
    simp only [hc] at h ⊢
    cases hw : env.Write fname (encodePkgs s.pkgs) with
    | some r => simp [hw] at h
    | none => simp [State.emit]

/-- The state in which `addPackage` takes the snapshot, but for the new entry:
after the pin, and after the unpin of the old hash when the name had an entry. -/
theorem addPackage_eq (env : Env) (name : GoString) (pkg : Package) (s : State) :
    ∃ t : State, t.pkgs = s.pkgs ∧
      addPackage env name pkg s
        = writeToDisk env regname { t with pkgs := s.pkgs.insert name pkg } := by
  unfold addPackage
  have h1 : (doPin env.sh pkg.Hash s).2.pkgs = s.pkgs := by
    unfold doPin
    cases env.sh.Pin pkg.Hash <;> rfl
  generalize (doPin env.sh pkg.Hash s).2 = s1 at h1
  cases hl : s1.pkgs.lookup name with
  | none =>
    refine ⟨s1, h1, ?_⟩
    simp only [hl]
    rw [h1]
  | some val =>
    simp only [hl]
    have h2 : (doUnpin env.sh val.Hash s1).2.pkgs = s.pkgs := by
      unfold doUnpin
      cases env.sh.Unpin val.Hash <;> exact h1
    rcases hr : doUnpin env.sh val.Hash s1 with ⟨oe, s'⟩
    rw [hr] at h2
    cases oe with
    | some e =>
      refine ⟨s'.emit (.error (.unpinFailed name val e)), h2, ?_⟩
      simp only [State.emit]
      rw [h2]
    | none =>
      refine ⟨s', h2, ?_⟩
      simp only
      rw [h2]

theorem addPackage_fst (env : Env) (name : GoString) (pkg : Package) (s : State) :
    (addPackage env name pkg s).1 = writeError env regname (encodePkgs (s.pkgs.insert name pkg)) := by
  obtain ⟨t, _, h⟩ := addPackage_eq env name pkg s
  rw [h, writeToDisk_fst]

theorem addPackage_pkgs (env : Env) (name : GoString) (pkg : Package) (s : State) :
    (addPackage env name pkg s).2.pkgs = s.pkgs.insert name pkg := by
  obtain ⟨t, _, h⟩ := addPackage_eq env name pkg s
  rw [h, writeToDisk_pkgs]

theorem addPackage_files (env : Env) (name : GoString) (pkg : Package) (s : State)
    (hw : writeError env regname (encodePkgs (s.pkgs.insert name pkg)) = none) :
    (addPackage env name pkg s).2.files regname = some (encodePkgs (s.pkgs.insert name pkg)) := by
  obtain ⟨t, _, h⟩ := addPackage_eq env name pkg s
  rw [h]
  exact writeToDisk_files env regname _ hw

theorem walk_of_checkSize (sh : Shell) (fuel : Nat) (hash : GoString) (s : State)
    (r : Int × Option Err)
    (h : (checkSize sh fuel hash s).map (fun x => x.1) = some r) :
    ∃ evs, walk sh fuel hash = some (r, evs) := by
  rw [checkSize_eq_walk] at h
  cases hw : walk sh fuel hash with
  | none => simp [hw] at h
  | some x =>
    obtain ⟨r0, evs⟩ := x
    simp [hw] at h
    exact ⟨evs, by rw [h]⟩

/-- The lookups of `walk` are `BlockStat` and `List` calls. -/
theorem walk_events (sh : Shell) (fuel : Nat) (hash : GoString)
    (r : Int × Option Err) (evs : List Event) (h : walk sh fuel hash = some (r, evs)) :
    ∀ e ∈ evs, (∃ a, e = .blockStat a) ∨ (∃ a, e = .list a) := by
  induction fuel generalizing hash r evs with
  | zero => simp [walk] at h
  | succ fuel ih =>
    have key : ∀ (links : List LsLink) (sum : Int) (r : Int × Option Err) (evs : List Event),
        walkLinks (walk sh fuel) links sum = some (r, evs) →
        ∀ e ∈ evs, (∃ a, e = .blockStat a) ∨ (∃ a, e = .list a) := by
      intro links
      induction links with
      | nil =>
        intro sum r evs h
        simp only [walkLinks, Option.some.injEq, Prod.mk.injEq] at h
        obtain ⟨_, rfl⟩ := h
        simp
      | cons l ls ihl =>
        intro sum r evs h
        simp only [walkLinks] at h
        split at h
        · exact absurd h (by simp)
        · next e evs1 hr =>
          simp only [Option.some.injEq, Prod.mk.injEq] at h
          obtain ⟨_, rfl⟩ := h
          exact ih _ _ _ hr
        · next n evs1 hr =>
          obtain ⟨⟨r2, evs2⟩, hr2, heq⟩ := Option.map_eq_some'.mp h
          simp only [Prod.mk.injEq] at heq
          obtain ⟨_, rfl⟩ := heq
          intro e he
          rcases List.mem_append.mp he with he | he
          · exact ih _ _ _ hr e he
          · exact ihl _ _ _ hr2 e he
    simp only [walk] at h
    split at h
    · simp only [Option.some.injEq, Prod.mk.injEq] at h
      obtain ⟨_, rfl⟩ := h
      intro e he
      simp only [List.mem_singleton] at he
      exact Or.inl ⟨_, he⟩
    · split at h
      · simp only [Option.some.injEq, Prod.mk.injEq] at h
        obtain ⟨_, rfl⟩ := h
        intro e he
        simp only [List.mem_cons, List.mem_singleton, List.not_mem_nil, or_false] at he
        rcases he with he | he
        · exact Or.inl ⟨_, he⟩
        · exact Or.inr ⟨_, he⟩
      · obtain ⟨⟨r2, evs2⟩, hr2, heq⟩ := Option.map_eq_some'.mp h
        simp only [Prod.mk.injEq] at heq
        obtain ⟨_, rfl⟩ := heq
        intro e he
        simp only [List.cons_append, List.nil_append, List.mem_cons] at he
        rcases he with he | he | he
        · exact Or.inl ⟨_, he⟩
        · exact Or.inr ⟨_, he⟩
        · exact key _ _ _ _ hr2 e he

/-! ## Publishing -/

/-- C7. When the listing of the root succeeds with a number of children other
than one, `CheckAndAddPackage` returns the "expected just the package dir"
error, and the state afterwards is the state before with two calls recorded, the
listing of the root and one log line: the mapping, the pinned set and the files
are untouched and no other store call is made. -/
theorem CheckAndAddPackage_unexpected_structure (env : Env) (fuel : Nat) (name : GoString)
    (pkg : Package) (s : State) (elems : List LsLink)
    (hlist : env.sh.List pkg.Hash = .ok elems) (hlen : elems.length ≠ 1) :
    ∃ s', CheckAndAddPackage env fuel name pkg s = some (some .expectedPackageDir, s') ∧
      s'.pkgs = s.pkgs ∧ s'.pinned = s.pinned ∧ s'.files = s.files ∧
      s'.trace = s.trace ++ [.list pkg.Hash, .log .packageListed] := by
  refine ⟨s.append [.list pkg.Hash, .log .packageListed], ?_, rfl, rfl, rfl, rfl⟩
  unfold CheckAndAddPackage
  simp only [hlist]
  match elems, hlen with
  | [], _ => simp [State.emit, State.append]
  | [e0], h => exact absurd rfl h
  | _ :: _ :: _, _ => simp [State.emit, State.append]

/-- C7 at the example store: the directory `hD` has three children. -/
theorem CheckAndAddPackage_unexpected_structure_witness :
    ∃ s', CheckAndAddPackage (demoEnv (demoShell (sizeWith 10) false false) false) 0
        (ascii "foo") ⟨ascii "bob", hD⟩ emptyState = some (some .expectedPackageDir, s') ∧
      s'.pkgs = emptyState.pkgs ∧ s'.pinned = emptyState.pinned ∧ s'.files = emptyState.files ∧
      s'.trace = emptyState.trace ++ [.list hD, .log .packageListed] :=
  CheckAndAddPackage_unexpected_structure (demoEnv (demoShell (sizeWith 10) false false) false) 0
    (ascii "foo") ⟨ascii "bob", hD⟩ emptyState
    [⟨hM, ascii "package.json"⟩, ⟨hA, ascii "a"⟩, ⟨hB, ascii "b"⟩] rfl (by decide)

/-- The run of `CheckAndAddPackage` on a package that passes validation, up to
the comparison of the size with the ceiling. -/
theorem CheckAndAddPackage_validated (env : Env) (fuel : Nat) (name : GoString)
    (pkg : Package) (s : State) (child : LsLink) (inpkg : List LsLink) (l : LsLink)
    (rc : GoString) (size : Int)
    (hroot : env.sh.List pkg.Hash = .ok [child])
    (hchild : env.sh.List child.Hash = .ok inpkg)
    (hlink : inpkg.find? (fun l => decide (l.Name = ascii "package.json")) = some l)
    (hhash : l.Hash ≠ [])
    (hcat : env.sh.Cat l.Hash = .ok rc)
    (hdec : env.gxDecode rc = none)
    (hsize : (checkSize env.sh fuel pkg.Hash s).map (fun r => r.1) = some (size, none)) :
    ∃ evs, (∀ e ∈ evs, e.isMutation = false) ∧
      CheckAndAddPackage env fuel name pkg s =
        if size > maxPackageSize then some (some .tooLarge, s.append evs)
        else some (addPackage env name pkg (s.append evs)) := by
  obtain ⟨wevs, hw⟩ := walk_of_checkSize _ _ _ _ _ hsize
  have hf := findPackageFile_of_find inpkg l hlink
  refine ⟨[.list pkg.Hash, .log .packageListed, .list child.Hash, .log (.packageName child.Name),
    .cat l.Hash] ++ wevs ++ [.log (.packageSize size)], ?_, ?_⟩
  · intro e he
    simp only [List.mem_append, List.mem_cons, List.mem_singleton, List.not_mem_nil,
      or_false] at he
    rcases he with ((he | he | he | he | he) | he) | he
    · subst he; rfl
    · subst he; rfl
    · subst he; rfl
    · subst he; rfl
    · subst he; rfl
    · rcases walk_events _ _ _ _ _ hw e he with ⟨a, rfl⟩ | ⟨a, rfl⟩ <;> rfl
    · subst he; rfl
  · unfold CheckAndAddPackage
    simp only [hroot, hchild, hf, hhash, if_false, hcat, hdec, checkSize_eq_walk, hw,
      Option.map_some', State.emit_eq_append, State.append_append, List.cons_append,
      List.nil_append, List.append_assoc]

/-- C2. For a package that passes validation and for which `checkSize` returns,
without error, a size above `maxPackageSize`, `CheckAndAddPackage` returns the
"package too large" error; the mapping, the pinned set and the files are as
before, and none of the calls made is a pin, an unpin, or a creation or write of
a file. -/
theorem CheckAndAddPackage_too_large (env : Env) (fuel : Nat) (name : GoString)
    (pkg : Package) (s : State) (child : LsLink) (inpkg : List LsLink) (l : LsLink)
    (rc : GoString) (size : Int)
    (hroot : env.sh.List pkg.Hash = .ok [child])
    (hchild : env.sh.List child.Hash = .ok inpkg)
    (hlink : inpkg.find? (fun l => decide (l.Name = ascii "package.json")) = some l)
    (hhash : l.Hash ≠ [])
    (hcat : env.sh.Cat l.Hash = .ok rc)
    (hdec : env.gxDecode rc = none)
    (hsize : (checkSize env.sh fuel pkg.Hash s).map (fun r => r.1) = some (size, none))
    (hbig : size > maxPackageSize) :
    ∃ s', CheckAndAddPackage env fuel name pkg s = some (some .tooLarge, s') ∧
      s'.pkgs = s.pkgs ∧ s'.pinned = s.pinned ∧ s'.files = s.files ∧
      ∃ evs, s'.trace = s.trace ++ evs ∧ ∀ e ∈ evs, e.isMutation = false := by
  obtain ⟨evs, hevs, h⟩ :=
    CheckAndAddPackage_validated env fuel name pkg s child inpkg l rc size hroot hchild hlink
      hhash hcat hdec hsize
  rw [if_pos hbig] at h
  exact ⟨s.append evs, h, rfl, rfl, rfl, evs, rfl, hevs⟩

/-- C2 at the example store, with a file of 300000 bytes reached along two
paths: the size is 600050. -/
theorem CheckAndAddPackage_too_large_witness :
    ∃ s', CheckAndAddPackage (demoEnv (demoShell (sizeWith 300000) false false) false) 4
        (ascii "foo") ⟨ascii "bob", hR⟩ emptyState = some (some .tooLarge, s') ∧
      s'.pkgs = emptyState.pkgs ∧ s'.pinned = emptyState.pinned ∧ s'.files = emptyState.files ∧
      ∃ evs, s'.trace = emptyState.trace ++ evs ∧ ∀ e ∈ evs, e.isMutation = false :=
  CheckAndAddPackage_too_large (demoEnv (demoShell (sizeWith 300000) false false) false) 4
    (ascii "foo") ⟨ascii "bob", hR⟩ emptyState ⟨hD, ascii "mypkg"⟩
    [⟨hM, ascii "package.json"⟩, ⟨hA, ascii "a"⟩, ⟨hB, ascii "b"⟩] ⟨hM, ascii "package.json"⟩
    (ascii "manifest") 600050 rfl rfl (by decide) (by decide) rfl rfl (by decide) (by decide)

/-- C1. For a package whose root lists exactly one child, whose child lists a
link named `package.json` (the one the search finds, with a non-empty hash)
whose bytes are fetched and decode, for which `checkSize` returns without error
a size of at most `maxPackageSize`, and when the snapshot is written without
error: `CheckAndAddPackage` returns no error, the entry of the name is the
submitted package, the entries of all other names are as before, and the
snapshot file holds the encoding of the new mapping. -/
theorem CheckAndAddPackage_ok (env : Env) (fuel : Nat) (name : GoString)
    (pkg : Package) (s : State) (child : LsLink) (inpkg : List LsLink) (l : LsLink)
    (rc : GoString) (size : Int)
    (hroot : env.sh.List pkg.Hash = .ok [child])
    (hchild : env.sh.List child.Hash = .ok inpkg)
    (hlink : inpkg.find? (fun l => decide (l.Name = ascii "package.json")) = some l)
    (hhash : l.Hash ≠ [])
    (hcat : env.sh.Cat l.Hash = .ok rc)
    (hdec : env.gxDecode rc = none)
    (hsize : (checkSize env.sh fuel pkg.Hash s).map (fun r => r.1) = some (size, none))
    (hle : size ≤ maxPackageSize)
    (hwrite : writeError env regname (encodePkgs (s.pkgs.insert name pkg)) = none) :
    ∃ s', CheckAndAddPackage env fuel name pkg s = some (none, s') ∧
      s'.pkgs.lookup name = some pkg ∧
      (∀ n, n ≠ name → s'.pkgs.lookup n = s.pkgs.lookup n) ∧
      s'.files regname = some (encodePkgs s'.pkgs) := by
  obtain ⟨evs, _, h⟩ :=
    CheckAndAddPackage_validated env fuel name pkg s child inpkg l rc size hroot hchild hlink
      hhash hcat hdec hsize
  rw [if_neg (not_lt.mpr hle)] at h
  have hp : (s.append evs).pkgs = s.pkgs := rfl
  have h1 := addPackage_fst env name pkg (s.append evs)
  have h2 := addPackage_pkgs env name pkg (s.append evs)
  have h3 := addPackage_files env name pkg (s.append evs) (by rw [hp]; exact hwrite)
  rw [hp] at h1 h2 h3
  rw [hwrite] at h1
  refine ⟨(addPackage env name pkg (s.append evs)).2, ?_, ?_, ?_, ?_⟩
  · rw [h, ← h1]
  · rw [h2, AList.lookup_insert]
  · intro n hn
    rw [h2, AList.lookup_insert_ne hn]
  · rw [h3, h2]

/-- C1 at the example store: a package of 2050 bytes published as `foo`. -/
theorem CheckAndAddPackage_ok_witness :
    ∃ s', CheckAndAddPackage (demoEnv (demoShell (sizeWith 1000) false false) false) 4
        (ascii "foo") ⟨ascii "bob", hR⟩ emptyState = some (none, s') ∧
      s'.pkgs.lookup (ascii "foo") = some ⟨ascii "bob", hR⟩ ∧
      (∀ n, n ≠ ascii "foo" → s'.pkgs.lookup n = emptyState.pkgs.lookup n) ∧
      s'.files regname = some (encodePkgs s'.pkgs) :=
  CheckAndAddPackage_ok (demoEnv (demoShell (sizeWith 1000) false false) false) 4
    (ascii "foo") ⟨ascii "bob", hR⟩ emptyState ⟨hD, ascii "mypkg"⟩
    [⟨hM, ascii "package.json"⟩, ⟨hA, ascii "a"⟩, ⟨hB, ascii "b"⟩] ⟨hM, ascii "package.json"⟩
    (ascii "manifest") 2050 rfl rfl (by decide) (by decide) rfl rfl (by decide) (by decide)
    (by decide)

/-! ## The commit -/

theorem writeToDisk_trace (env : Env) (fname : GoString) (s : State) :
    (writeToDisk env fname s).2.trace = s.trace ++ writeEvents env fname (encodePkgs s.pkgs) := by
  unfold writeToDisk writeEvents
  cases env.Create fname with
  | some m => simp [State.emit]
  | none =>
    simp only
    cases env.Write fname (encodePkgs s.pkgs) with
    | some r => simp [State.emit]
    | none => simp [State.emit]

/-- The calls of `addPackage`, in order: the pin of the new hash, the unpin of
the old one when there is one (and a log line when it fails), the snapshot. -/
theorem addPackage_trace (env : Env) (name : GoString) (pkg : Package) (s : State) :
    (addPackage env name pkg s).2.trace =
      s.trace ++ ([.pin pkg.Hash] ++ unpinEvents env name s
        ++ writeEvents env regname (encodePkgs (s.pkgs.insert name pkg))) := by
  unfold addPackage
  rw [writeToDisk_trace]
  have h1 : (doPin env.sh pkg.Hash s).2.pkgs = s.pkgs
      ∧ (doPin env.sh pkg.Hash s).2.trace = s.trace ++ [.pin pkg.Hash] := by
    unfold doPin
    cases env.sh.Pin pkg.Hash <;> exact ⟨rfl, rfl⟩
  generalize (doPin env.sh pkg.Hash s).2 = s1 at h1
  obtain ⟨hp, ht⟩ := h1
  unfold unpinEvents
  rw [← hp]
  cases hl : s1.pkgs.lookup name with
  | none => simp [ht]
  | some val =>
    simp only
    unfold doUnpin
    cases env.sh.Unpin val.Hash with
    | some e => simp [State.emit, ht]
    | none => simp [State.emit, ht]

/-- C8. `addPackage` on a name that has an entry with hash `A` makes exactly one
unpin request, for `A`; on a name without an entry it makes none. Whatever the
answer of the store to that request, when the snapshot is written without error
`addPackage` returns no error and the entry of the name is the new package. -/
theorem addPackage_unpin_tolerated (env : Env) (name : GoString) (pkg : Package) (s : State)
    (hwrite : writeError env regname (encodePkgs (s.pkgs.insert name pkg)) = none) :
    ∃ evs, (addPackage env name pkg s).2.trace = s.trace ++ evs ∧
      evs.filter Event.isUnpin =
        (match s.pkgs.lookup name with
          | some old => [.unpin old.Hash]
          | none => []) ∧
      (addPackage env name pkg s).1 = none ∧
      (addPackage env name pkg s).2.pkgs.lookup name = some pkg := by
  refine ⟨_, addPackage_trace env name pkg s, ?_, ?_, ?_⟩
  · unfold unpinEvents writeEvents
    cases s.pkgs.lookup name with
    | none => cases env.Create regname <;> simp [Event.isUnpin]
    | some old =>
      cases hu : env.sh.Unpin old.Hash <;> cases env.Create regname <;>
        simp [hu, Event.isUnpin]
  · rw [addPackage_fst, hwrite]
  · rw [addPackage_pkgs, AList.lookup_insert]

/-- C8 at the example store, with a store that refuses every unpin: `foo` moves
from `hA` to `hR`. -/
theorem addPackage_unpin_tolerated_witness :
    ∃ evs, (addPackage (demoEnv (demoShell (sizeWith 10) false true) false) (ascii "foo")
          ⟨ascii "bob", hR⟩ demoState).2.trace = demoState.trace ++ evs ∧
      evs.filter Event.isUnpin = [.unpin hA] ∧
      (addPackage (demoEnv (demoShell (sizeWith 10) false true) false) (ascii "foo")
          ⟨ascii "bob", hR⟩ demoState).1 = none ∧
      (addPackage (demoEnv (demoShell (sizeWith 10) false true) false) (ascii "foo")
          ⟨ascii "bob", hR⟩ demoState).2.pkgs.lookup (ascii "foo") = some ⟨ascii "bob", hR⟩ :=
  addPackage_unpin_tolerated (demoEnv (demoShell (sizeWith 10) false true) false) (ascii "foo")
    ⟨ascii "bob", hR⟩ demoState (by decide)

/-- C4, as stated, fails: the snapshot file cannot be created, `addPackage`
returns that error, and the entry of `foo` in memory is no longer the one from
before the call. -/
theorem addPackage_write_failure_not_rolled_back :
    (addPackage (demoEnv (demoShell (sizeWith 10) false false) true) (ascii "foo")
        ⟨ascii "bob", hR⟩ demoState).1 = some (.os (ascii "permission denied")) ∧
      demoState.pkgs.lookup (ascii "foo") = some ⟨ascii "alice", hA⟩ ∧
      (addPackage (demoEnv (demoShell (sizeWith 10) false false) true) (ascii "foo")
        ⟨ascii "bob", hR⟩ demoState).2.pkgs.lookup (ascii "foo") ≠
          demoState.pkgs.lookup (ascii "foo") := by
  decide

/-- C4, amended. When the snapshot write fails, `addPackage` returns that error
to the caller; the mapping in memory is not restored: the entry of the name is
the new package, and the entries of all other names are as before. -/
theorem addPackage_write_failure (env : Env) (name : GoString) (pkg : Package) (s : State)
    (e : Err)
    (hfail : writeError env regname (encodePkgs (s.pkgs.insert name pkg)) = some e) :
    (addPackage env name pkg s).1 = some e ∧
      (addPackage env name pkg s).2.pkgs.lookup name = some pkg ∧
      ∀ n, n ≠ name → (addPackage env name pkg s).2.pkgs.lookup n = s.pkgs.lookup n := by
  refine ⟨?_, ?_, ?_⟩
  · rw [addPackage_fst, hfail]
  · rw [addPackage_pkgs, AList.lookup_insert]
  · intro n hn
    rw [addPackage_pkgs, AList.lookup_insert_ne hn]

/-- C4, amended, at the example store with a snapshot file that cannot be
created. -/
theorem addPackage_write_failure_witness :
    (addPackage (demoEnv (demoShell (sizeWith 10) false false) true) (ascii "foo")
        ⟨ascii "bob", hR⟩ demoState).1 = some (.os (ascii "permission denied")) ∧
      (addPackage (demoEnv (demoShell (sizeWith 10) false false) true) (ascii "foo")
        ⟨ascii "bob", hR⟩ demoState).2.pkgs.lookup (ascii "foo") = some ⟨ascii "bob", hR⟩ ∧
      ∀ n, n ≠ ascii "foo" →
        (addPackage (demoEnv (demoShell (sizeWith 10) false false) true) (ascii "foo")
          ⟨ascii "bob", hR⟩ demoState).2.pkgs.lookup n = demoState.pkgs.lookup n :=
  addPackage_write_failure (demoEnv (demoShell (sizeWith 10) false false) true) (ascii "foo")
    ⟨ascii "bob", hR⟩ demoState (.os (ascii "permission denied")) (by decide)

/-- C9 at a store that refuses the pin: `addPackage` returns no error and the
entry is replaced, the only calls recorded are the pin request and the two of
the snapshot, so the refusal is in neither the returned error nor the log, and
the new hash is not retained. -/
theorem addPackage_pin_failure_dropped :
    (addPackage (demoEnv (demoShell (sizeWith 10) true false) false) (ascii "foo")
        ⟨ascii "bob", hR⟩ emptyState).1 = none ∧
      (addPackage (demoEnv (demoShell (sizeWith 10) true false) false) (ascii "foo")
        ⟨ascii "bob", hR⟩ emptyState).2.pkgs.lookup (ascii "foo") = some ⟨ascii "bob", hR⟩ ∧
      (addPackage (demoEnv (demoShell (sizeWith 10) true false) false) (ascii "foo")
        ⟨ascii "bob", hR⟩ emptyState).2.trace =
          [.pin hR, .create regname,
            .write regname (encodePkgs ((∅ : PkgMap).insert (ascii "foo") ⟨ascii "bob", hR⟩))] ∧
      (addPackage (demoEnv (demoShell (sizeWith 10) true false) false) (ascii "foo")
        ⟨ascii "bob", hR⟩ emptyState).2.pinned = [] := by
  decide

/-- C3 at a republish of `foo` with the hash it already has, every request
succeeding: before the call every entry's hash is pinned, the call returns no
error, and afterwards `foo` maps to `hA` while nothing is pinned. -/
theorem addPackage_same_hash_unpins_live_entry :
    pinsCoverEntries demoState = true ∧
      (addPackage (demoEnv (demoShell (sizeWith 10) false false) false) (ascii "foo")
        ⟨ascii "alice", hA⟩ demoState).1 = none ∧
      (addPackage (demoEnv (demoShell (sizeWith 10) false false) false) (ascii "foo")
        ⟨ascii "alice", hA⟩ demoState).2.pkgs.lookup (ascii "foo") = some ⟨ascii "alice", hA⟩ ∧
      (addPackage (demoEnv (demoShell (sizeWith 10) false false) false) (ascii "foo")
        ⟨ascii "alice", hA⟩ demoState).2.pinned = [] ∧
      pinsCoverEntries (addPackage (demoEnv (demoShell (sizeWith 10) false false) false)
        (ascii "foo") ⟨ascii "alice", hA⟩ demoState).2 = false := by
  decide

/-! ## The size walk -/

theorem wrapInt_add_left (a b : Int) : wrapInt (wrapInt a + b) = wrapInt (a + b) := by
  unfold wrapInt; omega

theorem wrapInt_add_right (a b : Int) : wrapInt (a + wrapInt b) = wrapInt (a + b) := by
  unfold wrapInt; omega

/-- A sum within the range of `int` is not changed by the wrap-around. -/
theorem wrapInt_of_range (x : Int) (h1 : -9223372036854775808 ≤ x)
    (h2 : x < 9223372036854775808) : wrapInt x = x := by
  unfold wrapInt; omega

theorem wrapInt_add_sum_map (links : List LsLink) (g : LsLink → Int) (a : Int) :
    wrapInt (a + (links.map (fun l => wrapInt (g l))).sum) = wrapInt (a + (links.map g).sum) := by
  induction links generalizing a with
  | nil => rfl
  | cons l ls ih =>
    simp only [List.map_cons, List.sum_cons]
    calc wrapInt (a + (wrapInt (g l) + (ls.map (fun l => wrapInt (g l))).sum))
        = wrapInt (a + wrapInt (g l) + (ls.map (fun l => wrapInt (g l))).sum) := by
          rw [add_assoc]
      _ = wrapInt (a + wrapInt (g l) + (ls.map g).sum) := ih _
      _ = wrapInt (a + (ls.map g).sum + wrapInt (g l)) := by rw [add_right_comm]
      _ = wrapInt (a + (ls.map g).sum + g l) := wrapInt_add_right _ _
      _ = wrapInt (a + (g l + (ls.map g).sum)) := by rw [add_right_comm, add_assoc]

theorem sum_map_flatMap (links : List LsLink) (f : LsLink → List GoString) (g : GoString → Int) :
    ((links.flatMap f).map g).sum = (links.map (fun l => ((f l).map g).sum)).sum := by
  induction links with
  | nil => rfl
  | cons l ls ih => simp [List.flatMap_cons, List.map_append, List.sum_append, ih]

theorem walkLinks_ok (rec : GoString → Option ((Int × Option Err) × List Event))
    (v : LsLink → Int) (t : LsLink → List Event) (links : List LsLink)
    (h : ∀ l ∈ links, rec l.Hash = some ((v l, none), t l)) (a : Int) :
    walkLinks rec links (wrapInt a)
      = some ((wrapInt (a + (links.map v).sum), none), links.flatMap t) := by
  induction links generalizing a with
  | nil => simp [walkLinks]
  | cons l ls ih =>
    have hl := h l (List.mem_cons_self _ _)
    have hls : ∀ l ∈ ls, rec l.Hash = some ((v l, none), t l) :=
      fun x hx => h x (List.mem_cons_of_mem _ hx)
    simp only [walkLinks, hl, wrapInt_add_left, ih hls, Option.map_some', List.map_cons,
      List.sum_cons, List.flatMap_cons, add_assoc]

theorem walkLinks_isSome (rec : GoString → Option ((Int × Option Err) × List Event))
    (links : List LsLink) (h : ∀ l ∈ links, (rec l.Hash).isSome) (a : Int) :
    (walkLinks rec links a).isSome := by
  induction links generalizing a with
  | nil => simp [walkLinks]
  | cons l ls ih =>
    have hl := h l (List.mem_cons_self _ _)
    have hls : ∀ l ∈ ls, (rec l.Hash).isSome := fun x hx => h x (List.mem_cons_of_mem _ hx)
    obtain ⟨⟨⟨n, oe⟩, evs⟩, hr⟩ := Option.isSome_iff_exists.mp hl
    cases oe with
    | some e => simp [walkLinks, hr]
    | none =>
      obtain ⟨y, hy⟩ := Option.isSome_iff_exists.mp (ih hls (wrapInt (a + n)))
      simp [walkLinks, hr, hy]

/-- A bound that holds from some fuel on for each link holds from some fuel on
for all links of a list. -/
theorem exists_fuel_forall_mem (Q : LsLink → Nat → Prop)
    (hmono : ∀ l N M, Q l N → N ≤ M → Q l M) (links : List LsLink)
    (h : ∀ l ∈ links, ∃ N, Q l N) : ∃ N, ∀ l ∈ links, Q l N := by
  induction links with
  | nil => exact ⟨0, fun _ hl => absurd hl (List.not_mem_nil _)⟩
  | cons l ls ih =>
    obtain ⟨N1, h1⟩ := h l (List.mem_cons_self _ _)
    obtain ⟨N2, h2⟩ := ih (fun x hx => h x (List.mem_cons_of_mem _ hx))
    refine ⟨max N1 N2, fun x hx => ?_⟩
    rcases List.mem_cons.mp hx with rfl | hx
    · exact hmono _ _ _ h1 (le_max_left _ _)
    · exact hmono _ _ _ (h2 x hx) (le_max_right _ _)

/-- On a finite acyclic graph `walk` returns, whatever the lookups answer. -/
theorem walk_terminates (sh : Shell) (root : GoString) (hacc : Acc (Child sh) root) :
    ∃ N, ∀ fuel, N ≤ fuel → (walk sh fuel root).isSome := by
  induction hacc with
  | intro p _ ih =>
    cases hl : sh.List p with
    | error e =>
      refine ⟨1, fun fuel hf => ?_⟩
      obtain ⟨f, rfl⟩ : ∃ f, fuel = f + 1 := ⟨fuel - 1, by omega⟩
      simp only [walk, hl]
      cases sh.BlockStat p <;> simp
    | ok links =>
      obtain ⟨M, hM⟩ := exists_fuel_forall_mem
        (fun l N => ∀ fuel, N ≤ fuel → (walk sh fuel l.Hash).isSome)
        (fun l N M hq hle fuel hf => hq fuel (le_trans hle hf)) links
        (fun l hlm => ih l.Hash ⟨links, hl, l, hlm, rfl⟩)
      refine ⟨M + 1, fun fuel hf => ?_⟩
      obtain ⟨f, rfl⟩ : ∃ f, fuel = f + 1 := ⟨fuel - 1, by omega⟩
      simp only [walk, hl]
      cases sh.BlockStat p with
      | error e => simp
      | ok x =>
        obtain ⟨y, hy⟩ := Option.isSome_iff_exists.mp
          (walkLinks_isSome (walk sh f) links (fun l hlm => hM l hlm f (by omega))
            (wrapInt (0 + x.2)))
        simp only [hy, Option.map_some', Option.isSome_some]

/-- On a finite acyclic graph whose lookups succeed, `walk` returns the sum of
the local sizes over the ends of all link paths, having looked up each of them,
and the list of those ends no longer depends on the fuel. -/
theorem walk_ok (sh : Shell) (root : GoString) (hacc : Acc (Child sh) root)
    (hok : LookupsSucceed sh root) :
    ∃ N, ∀ fuel, N ≤ fuel →
      walk sh fuel root = some
        ((wrapInt ((pathEnds sh fuel root).map (localSize sh)).sum, none),
          (pathEnds sh fuel root).flatMap lookupsOf) ∧
      ∀ fuel2, N ≤ fuel2 → pathEnds sh fuel root = pathEnds sh fuel2 root := by
  induction hacc with
  | intro p _ ih =>
    obtain ⟨⟨⟨k, n⟩, hb⟩, ⟨links, hl⟩⟩ := hok p Relation.ReflTransGen.refl
    have hchild : ∀ l ∈ links, LookupsSucceed sh l.Hash := fun l hlm h hr =>
      hok h (Relation.ReflTransGen.head ⟨links, hl, l, hlm, rfl⟩ hr)
    obtain ⟨M, hM⟩ := exists_fuel_forall_mem
      (fun l N => ∀ fuel, N ≤ fuel →
        walk sh fuel l.Hash = some
          ((wrapInt ((pathEnds sh fuel l.Hash).map (localSize sh)).sum, none),
            (pathEnds sh fuel l.Hash).flatMap lookupsOf) ∧
        ∀ fuel2, N ≤ fuel2 → pathEnds sh fuel l.Hash = pathEnds sh fuel2 l.Hash)
      (fun l N M hq hle fuel hf =>
        ⟨(hq fuel (le_trans hle hf)).1,
          fun fuel2 hf2 => (hq fuel (le_trans hle hf)).2 fuel2 (le_trans hle hf2)⟩)
      links (fun l hlm => ih l.Hash ⟨links, hl, l, hlm, rfl⟩ (hchild l hlm))
    have hlinks : linksOf sh p = links := by simp [linksOf, hl]
    have hsize : localSize sh p = n := by simp [localSize, hb]
    refine ⟨M + 1, fun fuel hf => ⟨?_, fun fuel2 hf2 => ?_⟩⟩
    · obtain ⟨f, rfl⟩ : ∃ f, fuel = f + 1 := ⟨fuel - 1, by omega⟩
      have hw := walkLinks_ok (walk sh f)
        (fun l => wrapInt ((pathEnds sh f l.Hash).map (localSize sh)).sum)
        (fun l => (pathEnds sh f l.Hash).flatMap lookupsOf) links
        (fun l hlm => (hM l hlm f (by omega)).1) (0 + n)
      simp only [zero_add] at hw
      simp only [walk, hb, hl, hw, Option.map_some', pathEnds, hlinks, List.map_cons,
        List.sum_cons, List.flatMap_cons, hsize, sum_map_flatMap, List.flatMap_assoc,
        wrapInt_add_sum_map, zero_add, lookupsOf]
    · obtain ⟨f, rfl⟩ : ∃ f, fuel = f + 1 := ⟨fuel - 1, by omega⟩
      obtain ⟨f2, rfl⟩ : ∃ f, fuel2 = f + 1 := ⟨fuel2 - 1, by omega⟩
      simp only [pathEnds, hlinks]
      congr 1
      apply List.flatMap_congr
      intro l hlm
      exact (hM l hlm f (by omega)).2 f2 (by omega)

theorem ErrorRule.prepend (sh : Shell) (r : Int × Option Err) (pfx evs : List Event)
    (h : ErrorRule sh r evs) (hp : ∀ x ∈ pfx, lookupOk sh x) : ErrorRule sh r (pfx ++ evs) := by
  obtain ⟨n, oe⟩ := r
  cases oe with
  | none =>
    intro ev hev
    rcases List.mem_append.mp hev with hev | hev
    · exact hp ev hev
    · exact h ev hev
  | some e =>
    obtain ⟨h0, pre, ev, m, hevs, hpre, hfail, he⟩ := h
    refine ⟨h0, pfx ++ pre, ev, m, by rw [hevs, List.append_assoc], ?_, hfail, he⟩
    intro x hx
    rcases List.mem_append.mp hx with hx | hx
    · exact hp x hx
    · exact hpre x hx

theorem walkLinks_errorRule (sh : Shell)
    (rec : GoString → Option ((Int × Option Err) × List Event))
    (hrec : ∀ h r evs, rec h = some (r, evs) → ErrorRule sh r evs)
    (links : List LsLink) (sum : Int) (r : Int × Option Err) (evs : List Event)
    (h : walkLinks rec links sum = some (r, evs)) : ErrorRule sh r evs := by
  induction links generalizing sum r evs with
  | nil =>
    simp only [walkLinks, Option.some.injEq, Prod.mk.injEq] at h
    obtain ⟨rfl, rfl⟩ := h
    intro ev hev
    exact absurd hev (List.not_mem_nil _)
  | cons l ls ih =>
    simp only [walkLinks] at h
    split at h
    · exact absurd h (by simp)
    · next n e evs1 hr =>
      simp only [Option.some.injEq, Prod.mk.injEq] at h
      obtain ⟨rfl, rfl⟩ := h
      obtain ⟨_, hrest⟩ := hrec _ _ _ hr
      exact ⟨rfl, hrest⟩
    · next n evs1 hr =>
      obtain ⟨⟨r2, evs2⟩, hr2, heq⟩ := Option.map_eq_some'.mp h
      simp only [Prod.mk.injEq] at heq
      obtain ⟨rfl, rfl⟩ := heq
      exact ErrorRule.prepend sh _ _ _ (ih _ _ _ hr2) (hrec _ _ _ hr)

/-- Whenever `walk` returns, its pair obeys `ErrorRule`. -/
theorem walk_errorRule (sh : Shell) (fuel : Nat) (hash : GoString)
    (r : Int × Option Err) (evs : List Event) (h : walk sh fuel hash = some (r, evs)) :
    ErrorRule sh r evs := by
  induction fuel generalizing hash r evs with
  | zero => simp [walk] at h
  | succ fuel ih =>
    simp only [walk] at h
    split at h
    · next e hb =>
      simp only [Option.some.injEq, Prod.mk.injEq] at h
      obtain ⟨rfl, rfl⟩ := h
      exact ⟨rfl, [], .blockStat hash, e, rfl, fun x hx => absurd hx (List.not_mem_nil _), hb, rfl⟩
    · next k size hb =>
      split at h
      · next e hl =>
        simp only [Option.some.injEq, Prod.mk.injEq] at h
        obtain ⟨rfl, rfl⟩ := h
        refine ⟨rfl, [.blockStat hash], .list hash, e, rfl, ?_, hl, rfl⟩
        intro x hx
        rw [List.mem_singleton.mp hx]
        exact ⟨_, hb⟩
      · next links hl =>
        obtain ⟨⟨r2, evs2⟩, hr2, heq⟩ := Option.map_eq_some'.mp h
        simp only [Prod.mk.injEq] at heq
        obtain ⟨rfl, rfl⟩ := heq
        refine ErrorRule.prepend sh _ _ _ (walkLinks_errorRule sh _ ih _ _ _ _ hr2) ?_
        intro x hx
        simp only [List.mem_cons, List.mem_singleton, List.not_mem_nil, or_false] at hx
        rcases hx with rfl | rfl
        · exact ⟨_, hb⟩
        · exact ⟨_, hl⟩

/-- A graph whose links lead to objects of smaller rank is well founded. -/
theorem acc_of_rank (sh : Shell) (rank : GoString → Nat)
    (hrank : ∀ c p, Child sh c p → rank c < rank p) (h : GoString) : Acc (Child sh) h :=
  Subrelation.accessible (fun {c p} hcp => hrank c p hcp)
    ((InvImage.wf rank Nat.lt_wfRel.wf).apply h)

theorem demo_child (size : GoString → Int) (pf uf : Bool) (c p : GoString)
    (h : Child (demoShell size pf uf) c p) :
    demoRank c < demoRank p ∧ (demoLinks c).isSome := by
  obtain ⟨links, hl, l, hlm, rfl⟩ := h
  have hdl : demoLinks p = some links := by
    simp only [demoShell] at hl
    cases hd : demoLinks p with
    | none => simp [hd] at hl
    | some x =>
      simp only [hd, Except.ok.injEq] at hl
      rw [hl]
  unfold demoLinks at hdl
  split at hdl
  · next hp =>
    subst hp
    simp only [Option.some.injEq] at hdl
    subst hdl
    simp only [List.mem_singleton] at hlm
    subst hlm
    decide
  · split at hdl
    · next hp =>
      subst hp
      simp only [Option.some.injEq] at hdl
      subst hdl
      simp only [List.mem_cons, List.mem_singleton, List.not_mem_nil, or_false] at hlm
      rcases hlm with rfl | rfl | rfl <;> decide
    · split at hdl
      · next hp =>
        subst hp
        simp only [Option.some.injEq] at hdl
        subst hdl
        simp only [List.mem_singleton] at hlm
        subst hlm
        decide
      · split at hdl
        · next hp =>
          subst hp
          simp only [Option.some.injEq] at hdl
          subst hdl
          simp only [List.mem_singleton] at hlm
          subst hlm
          decide
        · split at hdl
          · simp only [Option.some.injEq] at hdl
            subst hdl
            exact absurd hlm (List.not_mem_nil _)
          · exact absurd hdl (by simp)

theorem demo_acc (size : GoString → Int) (pf uf : Bool) (h : GoString) :
    Acc (Child (demoShell size pf uf)) h :=
  acc_of_rank _ demoRank (fun c p hcp => (demo_child size pf uf c p hcp).1) h

theorem demo_lookupsSucceed (size : GoString → Int) (pf uf : Bool) (root : GoString)
    (hroot : (demoLinks root).isSome) : LookupsSucceed (demoShell size pf uf) root := by
  intro h hr
  have hs : (demoLinks h).isSome := by
    induction hr with
    | refl => exact hroot
    | tail _ hstep _ => exact (demo_child size pf uf _ _ hstep).2
  obtain ⟨links, hlinks⟩ := Option.isSome_iff_exists.mp hs
  exact ⟨⟨(h, size h), by simp [demoShell, hlinks]⟩, ⟨links, by simp [demoShell, hlinks]⟩⟩

theorem checkSize_of_walk (sh : Shell) (fuel : Nat) (hash : GoString) (s : State)
    (r : Int × Option Err) (evs : List Event) (h : walk sh fuel hash = some (r, evs)) :
    checkSize sh fuel hash s = some (r, s.append evs) := by
  rw [checkSize_eq_walk, h]
  rfl

/-- C6. On a store whose link graph below `root` is finite and acyclic,
`checkSize` returns for every sufficient fuel, and its pair obeys `ErrorRule`:
when a lookup on a visited object fails it returns `0` and that error. When
moreover all lookups below `root` succeed, it returns without error the local
size of `root` plus the sum over the links of `root`, in order, of what
`checkSize` returns for each linked hash (in Go `int` arithmetic); that is the
sum of the local sizes over the ends of all link paths from `root`, an object at
the end of `k` paths counting `k` times; it has looked up each of them. -/
theorem checkSize_sum (sh : Shell) (root : GoString) (hacc : Acc (Child sh) root) :
    (∃ N, ∀ fuel, N ≤ fuel → ∀ s, ∃ r evs,
        checkSize sh fuel root s = some (r, s.append evs) ∧ ErrorRule sh r evs) ∧
    (LookupsSucceed sh root →
      ∃ N, ∀ fuel, N ≤ fuel → ∀ s, ∃ (total : Int) (v : GoString → Int),
        checkSize sh fuel root s
          = some ((total, none), s.append ((pathEnds sh fuel root).flatMap lookupsOf)) ∧
        (∀ l ∈ linksOf sh root, ∀ t, ∃ evs,
          checkSize sh fuel l.Hash t = some ((v l.Hash, none), t.append evs)) ∧
        total = wrapInt (localSize sh root + ((linksOf sh root).map (fun l => v l.Hash)).sum) ∧
        total = wrapInt ((pathEnds sh fuel root).map (localSize sh)).sum ∧
        total = wrapInt (∑ o ∈ (pathEnds sh fuel root).toFinset,
                  (pathEnds sh fuel root).count o • localSize sh o) ∧
        ∀ fuel2, N ≤ fuel2 → pathEnds sh fuel root = pathEnds sh fuel2 root) := by
  constructor
  · obtain ⟨N, hN⟩ := walk_terminates sh root hacc
    refine ⟨N, fun fuel hf s => ?_⟩
    obtain ⟨⟨r, evs⟩, hw⟩ := Option.isSome_iff_exists.mp (hN fuel hf)
    exact ⟨r, evs, checkSize_of_walk sh fuel root s r evs hw, walk_errorRule sh fuel root r evs hw⟩
  · intro hok
    obtain ⟨N0, hN0⟩ := walk_ok sh root hacc hok
    obtain ⟨_, ⟨links, hl⟩⟩ := hok root Relation.ReflTransGen.refl
    have hlinks : linksOf sh root = links := by simp [linksOf, hl]
    obtain ⟨M, hM⟩ := exists_fuel_forall_mem
      (fun l N => ∀ fuel, N ≤ fuel →
        walk sh fuel l.Hash = some
          ((wrapInt ((pathEnds sh fuel l.Hash).map (localSize sh)).sum, none),
            (pathEnds sh fuel l.Hash).flatMap lookupsOf) ∧
        ∀ fuel2, N ≤ fuel2 → pathEnds sh fuel l.Hash = pathEnds sh fuel2 l.Hash)
      (fun l N M hq hle fuel hf =>
        ⟨(hq fuel (le_trans hle hf)).1,
          fun fuel2 hf2 => (hq fuel (le_trans hle hf)).2 fuel2 (le_trans hle hf2)⟩)
      links
      (fun l hlm => walk_ok sh l.Hash (hacc.inv ⟨links, hl, l, hlm, rfl⟩)
        (fun h hr => hok h (Relation.ReflTransGen.head ⟨links, hl, l, hlm, rfl⟩ hr)))
    refine ⟨max N0 (M + 1), fun fuel hf s => ?_⟩
    have hf0 : N0 ≤ fuel := le_trans (le_max_left _ _) hf
    have hfM : M + 1 ≤ fuel := le_trans (le_max_right _ _) hf
    obtain ⟨hw, hstable⟩ := hN0 fuel hf0
    refine ⟨_, fun h => wrapInt ((pathEnds sh fuel h).map (localSize sh)).sum,
      checkSize_of_walk sh fuel root s _ _ hw, ?_, ?_, rfl, ?_, ?_⟩
    · intro l hlm t
      rw [hlinks] at hlm
      exact ⟨_, checkSize_of_walk sh fuel l.Hash t _ _ (hM l hlm fuel (by omega)).1⟩
    · obtain ⟨f, rfl⟩ : ∃ f, fuel = f + 1 := ⟨fuel - 1, by omega⟩
      rw [wrapInt_add_sum_map, hlinks]
      have hcongr : links.map (fun l => ((pathEnds sh (f + 1) l.Hash).map (localSize sh)).sum)
          = links.map (fun l => ((pathEnds sh f l.Hash).map (localSize sh)).sum) :=
        List.map_congr_left (fun l hlm => by
          rw [(hM l hlm (f + 1) (by omega)).2 f (by omega)])
      rw [hcongr]
      simp only [pathEnds, hlinks, List.map_cons, List.sum_cons, sum_map_flatMap]
    · rw [Finset.sum_list_map_count]
      congr!
    · intro fuel2 hf2
      exact hstable fuel2 (le_trans (le_max_left _ _) hf2)

/-- C6 at the example store, where `hC` (1000 bytes) ends two link paths from
`hR` and the five other objects weigh 10 bytes each: `checkSize` returns 2050. -/
theorem checkSize_sum_witness :
    ((∃ N, ∀ fuel, N ≤ fuel → ∀ s, ∃ r evs,
        checkSize (demoShell (sizeWith 1000) false false) fuel hR s = some (r, s.append evs) ∧
          ErrorRule (demoShell (sizeWith 1000) false false) r evs) ∧
      (LookupsSucceed (demoShell (sizeWith 1000) false false) hR →
        ∃ N, ∀ fuel, N ≤ fuel → ∀ s, ∃ (total : Int) (v : GoString → Int),
          checkSize (demoShell (sizeWith 1000) false false) fuel hR s
            = some ((total, none), s.append
                ((pathEnds (demoShell (sizeWith 1000) false false) fuel hR).flatMap lookupsOf)) ∧
          (∀ l ∈ linksOf (demoShell (sizeWith 1000) false false) hR, ∀ t, ∃ evs,
            checkSize (demoShell (sizeWith 1000) false false) fuel l.Hash t
              = some ((v l.Hash, none), t.append evs)) ∧
          total = wrapInt (localSize (demoShell (sizeWith 1000) false false) hR
            + ((linksOf (demoShell (sizeWith 1000) false false) hR).map
                (fun l => v l.Hash)).sum) ∧
          total = wrapInt ((pathEnds (demoShell (sizeWith 1000) false false) fuel hR).map
            (localSize (demoShell (sizeWith 1000) false false))).sum ∧
          total = wrapInt
            (∑ o ∈ (pathEnds (demoShell (sizeWith 1000) false false) fuel hR).toFinset,
              (pathEnds (demoShell (sizeWith 1000) false false) fuel hR).count o
                • localSize (demoShell (sizeWith 1000) false false) o) ∧
          ∀ fuel2, N ≤ fuel2 →
            pathEnds (demoShell (sizeWith 1000) false false) fuel hR
              = pathEnds (demoShell (sizeWith 1000) false false) fuel2 hR)) ∧
    LookupsSucceed (demoShell (sizeWith 1000) false false) hR ∧
    (checkSize (demoShell (sizeWith 1000) false false) 4 hR emptyState).map (fun r => r.1)
      = some (2050, none) ∧
    (pathEnds (demoShell (sizeWith 1000) false false) 4 hR).count hC = 2 :=
  ⟨checkSize_sum (demoShell (sizeWith 1000) false false) hR (demo_acc _ _ _ hR),
    demo_lookupsSucceed _ _ _ hR (by decide), by decide, by decide⟩

/-- C5, as stated, fails: the root `hA` weighs 600000 bytes by itself, above the
ceiling of 512000, and `checkSize` still looks up its child `hC` and returns the
total 600010 without error. -/
theorem checkSize_no_short_circuit :
    sizeRootBig hA > maxPackageSize ∧
      (checkSize (demoShell sizeRootBig false false) 2 hA emptyState).map
          (fun r => (r.1, r.2.trace))
        = some ((600010, none), [.blockStat hA, .list hA, .blockStat hC, .list hC]) := by
  decide

/-- A "package too large" error of `CheckAndAddPackage` comes from the
comparison made after `checkSize` has returned. -/
theorem tooLarge_after_walk (env : Env) (fuel : Nat) (name : GoString) (pkg : Package)
    (s s' : State) (h : CheckAndAddPackage env fuel name pkg s = some (some .tooLarge, s')) :
    ∃ size t t', checkSize env.sh fuel pkg.Hash t = some ((size, none), t') ∧
      size > maxPackageSize := by
  unfold CheckAndAddPackage at h
  dsimp only at h
  split at h
  · exact absurd h (by simp)
  · split at h
    · split at h
      · exact absurd h (by simp)
      · split at h
        · exact absurd h (by simp)
        · split at h
          · exact absurd h (by simp)
          · split at h
            · exact absurd h (by simp)
            · split at h
              · exact absurd h (by simp)
              · next e s6 hc =>
                simp only [Option.some.injEq, Prod.mk.injEq] at h
                obtain ⟨he, _⟩ := h
                subst he
                rw [checkSize_eq_walk] at hc
                obtain ⟨⟨r, evs⟩, hw, heq⟩ := Option.map_eq_some'.mp hc
                simp only [Prod.mk.injEq] at heq
                obtain ⟨hr, _⟩ := heq
                subst hr
                obtain ⟨_, _, _, _, _, _, _, hst⟩ := walk_errorRule _ _ _ _ _ hw
                exact absurd hst (by simp)
              · next size s6 hc =>
                split at h
                · next hbig => exact ⟨size, _, s6, hc, hbig⟩
                · simp only [Option.some.injEq] at h
                  have h1 := addPackage_fst env name pkg (s6.emit (.log (.packageSize size)))
                  rw [h] at h1
                  unfold writeError at h1
                  split at h1
                  · exact absurd h1 (by simp)
                  · split at h1
                    · exact absurd h1 (by simp)
                    · exact absurd h1 (by simp)
    · exact absurd h (by simp)

/-- C5, amended. `checkSize` has no ceiling. On a finite acyclic graph whose
lookups succeed it performs `BlockStat` and `List` on the end of every link path
from the root, whatever the running sum, and returns the total without error; it
never returns the "package too large" error, which `CheckAndAddPackage` produces
only after `checkSize` has returned a total above 512000. -/
theorem checkSize_visits_all (sh : Shell) (root : GoString) (hacc : Acc (Child sh) root)
    (hok : LookupsSucceed sh root) :
    (∃ N, ∀ fuel, N ≤ fuel → ∀ s,
      checkSize sh fuel root s
        = some ((wrapInt ((pathEnds sh fuel root).map (localSize sh)).sum, none),
            s.append ((pathEnds sh fuel root).flatMap lookupsOf))) ∧
    (∀ fuel hash s r s', checkSize sh fuel hash s = some (r, s') → r.2 ≠ some .tooLarge) ∧
    (∀ (env : Env) fuel name pkg s s',
      CheckAndAddPackage env fuel name pkg s = some (some .tooLarge, s') →
      ∃ size t t', checkSize env.sh fuel pkg.Hash t = some ((size, none), t') ∧
        size > maxPackageSize) := by
  refine ⟨?_, ?_, fun env fuel name pkg s s' h => tooLarge_after_walk env fuel name pkg s s' h⟩
  · obtain ⟨N, hN⟩ := walk_ok sh root hacc hok
    exact ⟨N, fun fuel hf s => checkSize_of_walk sh fuel root s _ _ (hN fuel hf).1⟩
  · intro fuel hash s r s' h
    rw [checkSize_eq_walk] at h
    obtain ⟨⟨r0, evs⟩, hw, heq⟩ := Option.map_eq_some'.mp h
    simp only [Prod.mk.injEq] at heq
    obtain ⟨rfl, _⟩ := heq
    intro hr
    have hrule := walk_errorRule sh fuel hash r0 evs hw
    obtain ⟨n, oe⟩ := r0
    simp only at hr
    subst hr
    obtain ⟨_, _, _, _, _, _, _, hst⟩ := hrule
    exact absurd hst (by simp)

/-- C5, amended, at the example store with the heavy root `hA`. -/
theorem checkSize_visits_all_witness :
    (∃ N, ∀ fuel, N ≤ fuel → ∀ s,
      checkSize (demoShell sizeRootBig false false) fuel hA s
        = some ((wrapInt ((pathEnds (demoShell sizeRootBig false false) fuel hA).map
              (localSize (demoShell sizeRootBig false false))).sum, none),
            s.append ((pathEnds (demoShell sizeRootBig false false) fuel hA).flatMap
              lookupsOf))) ∧
    pathEnds (demoShell sizeRootBig false false) 2 hA = [hA, hC] :=
  ⟨(checkSize_visits_all (demoShell sizeRootBig false false) hA (demo_acc _ _ _ hA)
      (demo_lookupsSucceed _ _ _ hA (by decide))).1, by decide⟩

/-! ## The snapshot: `encoding/json` read back -/

theorem ofNat_val_eq (b : Fin 256) (n : Nat) (h : n = b.val) : (Fin.ofNat n : Fin 256) = b := by
  subst h
  apply Fin.ext
  simp [Fin.ofNat]

theorem leading_spec (n sz lo hi : Nat) (h : leading n = some (sz, lo, hi)) :
    (sz = 2 ∧ lo = 0x80 ∧ hi = 0xBF ∧ 0xC2 ≤ n ∧ n ≤ 0xDF) ∨
    (sz = 3 ∧ hi ≤ 0xBF ∧ 0x80 ≤ lo ∧ 0xE0 ≤ n ∧ n ≤ 0xEF ∧ (n = 0xE0 → lo = 0xA0) ∧ (n = 0xED → hi = 0x9F)) ∨
    (sz = 4 ∧ hi ≤ 0xBF ∧ 0x80 ≤ lo ∧ 0xF0 ≤ n ∧ n ≤ 0xF4 ∧ (n = 0xF0 → lo = 0x90) ∧ (n = 0xF4 → hi = 0x8F)) := by
  unfold leading at h
  repeat' split at h
  all_goals first
    | (simp only [Option.some.injEq, Prod.mk.injEq] at h; omega)
    | exact absurd h (by simp)

theorem encodeRune_two (b0 b1 : Fin 256) (h0 : 0xC2 ≤ b0.val ∧ b0.val ≤ 0xDF)
    (h1 : 0x80 ≤ b1.val ∧ b1.val ≤ 0xBF) :
    encodeRune (b0.val % 32 * 64 + b1.val % 64) = [b0, b1] := by
  unfold encodeRune
  rw [if_neg (by omega), if_pos (by omega)]
  rw [ofNat_val_eq b0 _ (by omega), ofNat_val_eq b1 _ (by omega)]

theorem encodeRune_three (b0 b1 b2 : Fin 256) (lo hi : Nat)
    (h0 : 0xE0 ≤ b0.val ∧ b0.val ≤ 0xEF) (hlo : 0x80 ≤ lo) (hhi : hi ≤ 0xBF)
    (hE0 : b0.val = 0xE0 → lo = 0xA0) (hED : b0.val = 0xED → hi = 0x9F)
    (h1 : lo ≤ b1.val ∧ b1.val ≤ hi) (h2 : 0x80 ≤ b2.val ∧ b2.val ≤ 0xBF) :
    encodeRune (b0.val % 16 * 4096 + b1.val % 64 * 64 + b2.val % 64) = [b0, b1, b2] := by
  unfold encodeRune
  rw [if_neg (by omega), if_neg (by omega), if_neg (by omega), if_pos (by omega)]
  rw [ofNat_val_eq b0 _ (by omega), ofNat_val_eq b1 _ (by omega), ofNat_val_eq b2 _ (by omega)]

theorem encodeRune_four (b0 b1 b2 b3 : Fin 256) (lo hi : Nat)
    (h0 : 0xF0 ≤ b0.val ∧ b0.val ≤ 0xF4) (hlo : 0x80 ≤ lo) (hhi : hi ≤ 0xBF)
    (hF0 : b0.val = 0xF0 → lo = 0x90) (hF4 : b0.val = 0xF4 → hi = 0x8F)
    (h1 : lo ≤ b1.val ∧ b1.val ≤ hi) (h2 : 0x80 ≤ b2.val ∧ b2.val ≤ 0xBF)
    (h3 : 0x80 ≤ b3.val ∧ b3.val ≤ 0xBF) :
    encodeRune (b0.val % 8 * 262144 + b1.val % 64 * 4096 + b2.val % 64 * 64 + b3.val % 64)
      = [b0, b1, b2, b3] := by
  unfold encodeRune
  rw [if_neg (by omega), if_neg (by omega), if_neg (by omega), if_neg (by omega)]
  rw [ofNat_val_eq b0 _ (by omega), ofNat_val_eq b1 _ (by omega), ofNat_val_eq b2 _ (by omega),
    ofNat_val_eq b3 _ (by omega)]

/-- A multi-byte sequence that `decodeRune` accepts: the bytes consumed are the
encoding of the rune, and what follows them plays no part. -/
theorem decodeRune_multibyte (b : Fin 256) (t : GoString) (hb : 0x80 ≤ b.val) (c size : Nat)
    (hd : decodeRune (b :: t) = (c, size)) (hv : ¬(c = RuneError ∧ size = 1)) :
    ∃ pre post, b :: t = pre ++ post ∧ pre.length = size ∧ 2 ≤ size ∧ encodeRune c = pre ∧
      ∀ X, decodeRune (pre ++ X) = (c, size) := by
  unfold decodeRune at hd
  cases hlead : leading b.val with
  | none =>
    simp only [hlead, if_neg (not_lt.mpr hb), Prod.mk.injEq] at hd
    exact absurd ⟨hd.1.symm, hd.2.symm⟩ hv
  | some x =>
    obtain ⟨sz, lo, hi⟩ := x
    simp only [hlead] at hd
    have bad : ∀ {P : Prop}, (RuneError, 1) = (c, size) → P := fun h => by
      simp only [Prod.mk.injEq] at h
      exact absurd ⟨h.1.symm, h.2.symm⟩ hv
    split at hd
    · exact bad hd
    · next hlen =>
      cases t with
      | nil => exact bad hd
      | cons s1 t1 =>
        simp only at hd
        split at hd
        · exact bad hd
        · next hr1 =>
          have hr1a : lo ≤ s1.val ∧ s1.val ≤ hi := by omega
          rcases leading_spec _ _ _ _ hlead with
            ⟨rfl, rfl, rfl, h0⟩ | ⟨rfl, hhi, hlo, h0a, h0b, hE0, hED⟩ |
            ⟨rfl, hhi, hlo, h0a, h0b, hF0, hF4⟩
          · simp only [le_refl, if_true, Prod.mk.injEq] at hd
            obtain ⟨rfl, rfl⟩ := hd
            refine ⟨[b, s1], t1, rfl, rfl, le_refl _, encodeRune_two b s1 h0 hr1a, ?_⟩
            intro X
            simp [decodeRune, hlead, hr1]
          · simp only [show ¬ (3 ≤ 2) by omega, if_false] at hd
            cases t1 with
            | nil => exact bad hd
            | cons s2 t2 =>
              simp only at hd
              split at hd
              · exact bad hd
              · next hr2 =>
                simp only [le_refl, if_true, Prod.mk.injEq] at hd
                obtain ⟨rfl, rfl⟩ := hd
                refine ⟨[b, s1, s2], t2, rfl, rfl, by omega,
                  encodeRune_three b s1 s2 lo hi ⟨h0a, h0b⟩ hlo hhi hE0 hED hr1a (by omega), ?_⟩
                intro X
                simp [decodeRune, hlead, hr1, hr2]
          · simp only [show ¬ (4 ≤ 2) by omega, if_false] at hd
            cases t1 with
            | nil => exact bad hd
            | cons s2 t2 =>
              simp only at hd
              split at hd
              · exact bad hd
              · next hr2 =>
                simp only [show ¬ (4 ≤ 3) by omega, if_false] at hd
                cases t2 with
                | nil => exact bad hd
                | cons s3 t3 =>
                  simp only at hd
                  split at hd
                  · exact bad hd
                  · next hr3 =>
                    simp only [Prod.mk.injEq] at hd
                    obtain ⟨rfl, rfl⟩ := hd
                    refine ⟨[b, s1, s2, s3], t3, rfl, rfl, by omega,
                      encodeRune_four b s1 s2 s3 lo hi ⟨h0a, h0b⟩ hlo hhi hF0 hF4 hr1a
                        (by omega) (by omega), ?_⟩
                    intro X
                    simp [decodeRune, hlead, hr1, hr2, hr3]

theorem hexVal_hexDigit (n : Nat) (h : n < 16) : hexVal (hexDigit n) = some n := by
  interval_cases n <;> rfl

theorem getu4_cons (h0 h1 h2 h3 : Fin 256) (a b c d : Nat) (R : GoString)
    (e0 : hexVal h0 = some a) (e1 : hexVal h1 = some b) (e2 : hexVal h2 = some c)
    (e3 : hexVal h3 = some d) :
    getu4 (0x5C :: 0x75 :: h0 :: h1 :: h2 :: h3 :: R) = some (a * 4096 + b * 256 + c * 16 + d) := by
  simp [getu4, e0, e1, e2, e3]

theorem encodeRune_ascii (b : Fin 256) (h : b.val < 0x80) : encodeRune b.val = [b] := by
  unfold encodeRune
  rw [if_pos (by omega), ofNat_val_eq b _ rfl]

theorem unquoteLoop_escapeByte (b : Fin 256) (hb : b.val < 0x80)
    (fuel : Nat) (R : GoString) :
    unquoteLoop (fuel + 1) (escapeByte b ++ R)
      = (unquoteLoop fuel R).map (fun r => (b :: r.1, r.2)) := by
  unfold escapeByte
  split
  · next h =>
    rcases h with rfl | rfl <;> simp [unquoteLoop]
  · split
    · next h => subst h; simp [unquoteLoop]
    · split
      · next h => subst h; simp [unquoteLoop]
      · split
        · next h => subst h; simp [unquoteLoop]
        · split
          · next h => subst h; simp [unquoteLoop]
          · split
            · next h => subst h; simp [unquoteLoop]
            · have h1 := hexVal_hexDigit (b.val / 16) (by omega)
              have h2 := hexVal_hexDigit (b.val % 16) (by omega)
              have hsum : 0 * 4096 + 0 * 256 + b.val / 16 * 16 + b.val % 16 = b.val := by omega
              have hg := getu4_cons 0x30 0x30 _ _ 0 0 _ _ R rfl rfl h1 h2
              rw [hsum] at hg
              have hns : ¬ (55296 ≤ b.val ∧ b.val < 57344) := by omega
              simp [unquoteLoop, hg, hns, encodeRune_ascii b hb]

theorem length_escapeByte_pos (b : Fin 256) : 0 < (escapeByte b).length := by
  unfold escapeByte
  repeat' split
  all_goals simp

/-- Decoding inverts encoding on valid UTF-8: the body of the literal written
for `s`, followed by the closing quote, is read back as `s`. -/
theorem unquoteLoop_appendStringLoop (fuel : Nat) (s : GoString) (hlen : s.length ≤ fuel)
    (hv : validUTF8Loop fuel s = true) (rest : GoString) (fuel2 : Nat)
    (hf : (appendStringLoop fuel s).length < fuel2) :
    unquoteLoop fuel2 (appendStringLoop fuel s ++ 0x22 :: rest) = some (s, rest) := by
  induction fuel generalizing s fuel2 with
  | zero =>
    have hs : s = [] := List.length_eq_zero.mp (Nat.le_zero.mp hlen)
    subst hs
    obtain ⟨k, rfl⟩ : ∃ k, fuel2 = k + 1 := ⟨fuel2 - 1, by omega⟩
    simp [appendStringLoop, unquoteLoop]
  | succ fuel ih =>
    obtain ⟨k, rfl⟩ : ∃ k, fuel2 = k + 1 := ⟨fuel2 - 1, by omega⟩
    cases s with
    | nil => simp [appendStringLoop, unquoteLoop]
    | cons b t =>
      simp only [List.length_cons, Nat.add_le_add_iff_right] at hlen
      by_cases hb : b.val < 0x80
      · -- one ASCII byte
        have hd : decodeRune (b :: t) = (b.val, 1) := by
          have hl : leading b.val = none := by
            unfold leading
            repeat' split
            all_goals first | rfl | omega
          simp [decodeRune, hl, hb]
        have hne : b.val ≠ RuneError := by
          unfold RuneError; omega
        simp only [validUTF8Loop, hd, hne, false_and, if_false, List.drop_succ_cons,
          List.drop_zero] at hv
        simp only [appendStringLoop, hb, if_true, List.append_assoc] at hf ⊢
        by_cases hsafe : htmlSafe b = true
        · simp only [hsafe, if_true, List.singleton_append, List.length_cons] at hf ⊢
          have h1 : b ≠ 0x22 := by
            intro h; subst h; exact absurd hsafe (by decide)
          have h2 : b ≠ 0x5C := by
            intro h; subst h; exact absurd hsafe (by decide)
          have h3 : ¬ b.val < 0x20 := by
            intro h
            simp only [htmlSafe, Bool.and_eq_true, decide_eq_true_eq] at hsafe
            omega
          simp only [unquoteLoop, h1, h2, h3, hb, if_false, if_true]
          rw [ih t hlen hv k (by omega)]
          rfl
        · have hs2 : htmlSafe b = false := by simpa using hsafe
          simp only [hs2, Bool.false_eq_true, if_false, List.length_append] at hf ⊢
          have hpos := length_escapeByte_pos b
          rw [unquoteLoop_escapeByte b hb k, ih t hlen hv k (by omega)]
          rfl
      · -- a multi-byte sequence
        rcases hd : decodeRune (b :: t) with ⟨c, size⟩
        simp only [validUTF8Loop, hd] at hv
        split at hv
        · exact absurd hv (by simp)
        · next hvalid =>
          obtain ⟨pre, post, hsplit, hpl, hsz, henc, hpre⟩ :=
            decodeRune_multibyte b t (by omega) c size hd hvalid
          have hdrop : (b :: t).drop size = post := by
            rw [hsplit, ← hpl, List.drop_left]
          have htake : (b :: t).take size = pre := by
            rw [hsplit, ← hpl, List.take_left]
          have hpost : post.length ≤ fuel := by
            have := congrArg List.length hsplit
            simp only [List.length_cons, List.length_append] at this
            omega
          rw [hdrop] at hv
          simp only [appendStringLoop, hb, if_false, hd, hvalid, hdrop, htake] at hf ⊢
          have hb1 : b ≠ 0x22 := by
            intro h; subst h; exact absurd hb (by decide)
          have hb2 : b ≠ 0x5C := by
            intro h; subst h; exact absurd hb (by decide)
          have hb3 : ¬ b.val < 0x20 := by omega
          by_cases hc : c = 0x2028 ∨ c = 0x2029
          · simp only [hc, if_true, List.length_append, List.length_cons, List.length_nil,
              List.cons_append, List.nil_append, List.append_assoc] at hf ⊢
            have hg := getu4_cons 0x32 0x30 0x32 (hexDigit (c % 16)) 2 0 2 (c % 16)
              (appendStringLoop fuel post ++ 0x22 :: rest) rfl rfl rfl
              (hexVal_hexDigit _ (by omega))
            have hsum : 2 * 4096 + 0 * 256 + 2 * 16 + c % 16 = c := by omega
            rw [hsum] at hg
            have hns : ¬ (55296 ≤ c ∧ c < 57344) := by omega
            simp only [unquoteLoop, show ((0x5C : Fin 256) = 0x22) = False by decide,
              if_false, if_true, hg, hns, List.drop_succ_cons, List.drop_zero,
              show ((0x75 : Fin 256) = 0x22 ∨ (0x75 : Fin 256) = 0x5C ∨ (0x75 : Fin 256) = 0x2F)
                = False by decide,
              show ((0x75 : Fin 256) = 0x62) = False by decide,
              show ((0x75 : Fin 256) = 0x66) = False by decide,
              show ((0x75 : Fin 256) = 0x6E) = False by decide,
              show ((0x75 : Fin 256) = 0x72) = False by decide,
              show ((0x75 : Fin 256) = 0x74) = False by decide]
            rw [ih post hpost hv k (by omega), henc, hsplit]
            rfl
          · simp only [hc, if_false, List.length_append, List.append_assoc] at hf ⊢
            cases pre with
            | nil => simp at hpl; omega
            | cons p0 pre2 =>
              have hp0 : p0 = b := by
                have := congrArg List.head? hsplit
                simpa using this.symm
              subst hp0
              have hdec := hpre (appendStringLoop fuel post ++ 0x22 :: rest)
              have hdrop2 : List.drop size (p0 :: pre2 ++ (appendStringLoop fuel post ++ 0x22 :: rest))
                  = appendStringLoop fuel post ++ 0x22 :: rest := by
                rw [← hpl, List.drop_left]
              simp only [List.cons_append] at hdec hdrop2 ⊢
              simp only [unquoteLoop, hb1, hb2, hb3, hb, if_false, hdec, hdrop2]
              rw [ih post hpost hv k (by omega), henc, hsplit]
              rfl

theorem appendString_cons (s : GoString) :
    appendString s = 0x22 :: (appendStringLoop s.length s ++ [0x22]) := rfl

theorem skipSpace_appendString (s X : GoString) :
    skipSpace (appendString s ++ X) = appendString s ++ X := by
  simp [appendString_cons, skipSpace]

theorem skipSpace_colon (X : GoString) : skipSpace (0x3A :: X) = 0x3A :: X := by
  simp [skipSpace]

theorem skipSpace_comma (X : GoString) : skipSpace (0x2C :: X) = 0x2C :: X := by
  simp [skipSpace]

theorem skipSpace_close (X : GoString) : skipSpace (0x7D :: X) = 0x7D :: X := by
  simp [skipSpace]

theorem skipSpace_brace (X : GoString) : skipSpace (0x7B :: X) = 0x7B :: X := by
  simp [skipSpace]

theorem parseString_appendString (s X : GoString) (hv : validUTF8 s = true) :
    parseString (appendString s ++ X) = some (s, X) := by
  have h := unquoteLoop_appendStringLoop s.length s (le_refl _) hv X
    (appendStringLoop s.length s ++ 0x22 :: X).length (by simp)
  simp only [appendString_cons, List.cons_append, List.append_assoc, List.singleton_append,
    parseString, if_true]
  exact h

theorem parseFields_author (fuel : Nat) (v Y : GoString) (p : Package)
    (hv : validUTF8 v = true) :
    parseFields (fuel + 1)
        (appendString (ascii "Author") ++ 0x3A :: (appendString v ++ 0x2C :: Y)) p
      = parseFields fuel (skipSpace Y) { p with Author := v } := by
  have hk := parseString_appendString (ascii "Author") (0x3A :: (appendString v ++ 0x2C :: Y))
    (by decide)
  have hval := parseString_appendString v (0x2C :: Y) hv
  have hd : ((0x2C : Fin 256) = 0x7D) = False := by decide
  simp only [parseFields, hk, skipSpace_colon, ne_eq, not_true_eq_false, if_false,
    skipSpace_appendString, hval, if_true, skipSpace_comma, hd]

theorem parseFields_hash (fuel : Nat) (v Y : GoString) (p : Package)
    (hv : validUTF8 v = true) :
    parseFields (fuel + 1)
        (appendString (ascii "Hash") ++ 0x3A :: (appendString v ++ 0x7D :: Y)) p
      = some ({ p with Hash := v }, Y) := by
  have hk := parseString_appendString (ascii "Hash") (0x3A :: (appendString v ++ 0x7D :: Y))
    (by decide)
  have hval := parseString_appendString v (0x7D :: Y) hv
  have hne : (ascii "Hash" = ascii "Author") = False := by
    simp only [eq_iff_iff, iff_false]; decide
  simp only [parseFields, hk, skipSpace_colon, ne_eq, not_true_eq_false, if_false,
    skipSpace_appendString, hval, if_true, skipSpace_close, hne]

theorem encodePackage_append (p : Package) (X : GoString) :
    encodePackage p ++ X = 0x7B :: (appendString (ascii "Author") ++ 0x3A ::
      (appendString p.Author ++ 0x2C :: (appendString (ascii "Hash") ++ 0x3A ::
        (appendString p.Hash ++ 0x7D :: X)))) := by
  simp [encodePackage, List.append_assoc]

theorem parsePackage_encodePackage (p : Package) (X : GoString)
    (ha : validUTF8 p.Author = true) (hh : validUTF8 p.Hash = true) :
    parsePackage (encodePackage p ++ X) = some (p, X) := by
  rw [encodePackage_append]
  have hd : ((0x22 : Fin 256) = 0x7D) = False := by decide
  have hlen2 : 2 ≤ (appendString (ascii "Author") ++ 0x3A ::
      (appendString p.Author ++ 0x2C :: (appendString (ascii "Hash") ++ 0x3A ::
        (appendString p.Hash ++ 0x7D :: X)))).length := by
    simp only [appendString_cons, List.length_append, List.length_cons]
    omega
  obtain ⟨n, hn⟩ := Nat.exists_eq_add_of_le' hlen2
  simp only [parsePackage, ne_eq, not_true_eq_false, if_false, skipSpace_appendString]
  rw [appendString_cons (ascii "Author")]
  simp only [List.cons_append, hd, if_false]
  rw [← List.cons_append, ← appendString_cons, hn, parseFields_author _ _ _ _ ha,
    skipSpace_appendString, parseFields_hash _ _ _ _ hh]

theorem encodeMembers_cons_append (e : Sigma fun _ : GoString => Package)
    (es : List (Sigma fun _ : GoString => Package)) (X : GoString) :
    encodeMembers (e :: es) ++ 0x7D :: X
      = appendString e.1 ++ 0x3A :: (encodePackage e.2 ++
          (if es = [] then 0x7D :: X else 0x2C :: (encodeMembers es ++ 0x7D :: X))) := by
  cases es with
  | nil => simp [encodeMembers, List.append_assoc]
  | cons e2 es2 => simp [encodeMembers, List.append_assoc]

theorem length_le_encodeMembers (es : List (Sigma fun _ : GoString => Package)) :
    es.length ≤ (encodeMembers es).length := by
  induction es with
  | nil => simp
  | cons e es ih =>
    cases es with
    | nil => simp [encodeMembers, appendString_cons]
    | cons e2 es2 =>
      simp only [encodeMembers, List.length_append, List.length_cons, appendString_cons] at ih ⊢
      omega

theorem skipSpace_encodeMembers (e : Sigma fun _ : GoString => Package)
    (es : List (Sigma fun _ : GoString => Package)) (X : GoString) :
    skipSpace (encodeMembers (e :: es) ++ X) = encodeMembers (e :: es) ++ X := by
  cases es with
  | nil => simp only [encodeMembers, List.append_assoc, skipSpace_appendString]
  | cons e2 es2 => simp only [encodeMembers, List.append_assoc, skipSpace_appendString]

theorem parseEntries_encodeMembers (es : List (Sigma fun _ : GoString => Package))
    (hne : es ≠ []) (hv : entriesValid es) (fuel : Nat) (hf : es.length ≤ fuel)
    (m : PkgMap) (X : GoString) :
    parseEntries fuel (encodeMembers es ++ 0x7D :: X) m
      = some (es.foldl (fun acc e => acc.insert e.1 e.2) m, X) := by
  induction es generalizing fuel m with
  | nil => exact absurd rfl hne
  | cons e es ih =>
    obtain ⟨k, rfl⟩ : ∃ k, fuel = k + 1 := ⟨fuel - 1, by simp at hf; omega⟩
    obtain ⟨h1, h2, h3⟩ := hv e (List.mem_cons_self _ _)
    have hrest : entriesValid es := fun x hx => hv x (List.mem_cons_of_mem _ hx)
    rw [encodeMembers_cons_append]
    have hk := parseString_appendString e.1 (0x3A :: (encodePackage e.2 ++
          (if es = [] then 0x7D :: X else 0x2C :: (encodeMembers es ++ 0x7D :: X)))) h1
    have hp := parsePackage_encodePackage e.2
      (if es = [] then 0x7D :: X else 0x2C :: (encodeMembers es ++ 0x7D :: X)) h2 h3
    have hsk : skipSpace (encodePackage e.2 ++
        (if es = [] then 0x7D :: X else 0x2C :: (encodeMembers es ++ 0x7D :: X)))
        = encodePackage e.2 ++
        (if es = [] then 0x7D :: X else 0x2C :: (encodeMembers es ++ 0x7D :: X)) := by
      rw [encodePackage_append, skipSpace_brace]
    simp only [parseEntries, hk, skipSpace_colon, ne_eq, not_true_eq_false, if_false, hsk, hp]
    cases es with
    | nil =>
      simp only [if_true, skipSpace_close, List.foldl_cons, List.foldl_nil]
    | cons e2 es2 =>
      have hd : ((0x2C : Fin 256) = 0x7D) = False := by decide
      simp only [List.cons_ne_nil, if_false, skipSpace_comma, hd, if_true,
        skipSpace_encodeMembers, List.foldl_cons]
      rw [ih (List.cons_ne_nil _ _) hrest k (by simp at hf ⊢; omega)]
      rfl

theorem lookup_foldl_insert (es : List (Sigma fun _ : GoString => Package))
    (hnd : es.NodupKeys) (m : PkgMap) (k : GoString) :
    (es.foldl (fun acc e => acc.insert e.1 e.2) m).lookup k
      = (List.dlookup k es).orElse (fun _ => m.lookup k) := by
  induction es generalizing m with
  | nil => simp
  | cons e es ih =>
    obtain ⟨key, val⟩ := e
    rw [List.nodupKeys_cons] at hnd
    simp only [List.foldl_cons]
    rw [ih hnd.2]
    by_cases hk : k = key
    · subst hk
      have hnone : List.dlookup k es = none := List.dlookup_eq_none.mpr hnd.1
      simp [hnone, AList.lookup_insert]
    · rw [List.dlookup_cons_ne _ _ (fun h => hk h), AList.lookup_insert_ne hk]

theorem decodePkgs_encodePkgs (m : PkgMap) (hv : entriesValid m.entries) :
    ∃ m2, decodePkgs (encodePkgs m) ∅ = some m2 ∧ ∀ k, m2.lookup k = m.lookup k := by
  have hperm := List.perm_insertionSort
    (fun a b : (Sigma fun _ : GoString => Package) => a.1 ≤ b.1) m.entries
  generalize hs : m.entries.insertionSort (fun a b => a.1 ≤ b.1) = sorted at hperm
  have hvs : entriesValid sorted := fun e he => hv e (hperm.mem_iff.mp he)
  have hnd : sorted.NodupKeys := (List.perm_nodupKeys hperm.symm).mp m.nodupKeys
  have hlook : ∀ k, List.dlookup k sorted = m.lookup k := fun k =>
    List.perm_dlookup k hnd m.nodupKeys hperm
  unfold decodePkgs encodePkgs
  rw [hs]
  cases sorted with
  | nil =>
    refine ⟨∅, by simp [encodeMembers, skipSpace], fun k => ?_⟩
    rw [← hlook k]
    rfl
  | cons e es =>
    have hshape : [(0x7B : Fin 256)] ++ encodeMembers (e :: es) ++ [0x7D, 0x0A]
        = 0x7B :: (encodeMembers (e :: es) ++ 0x7D :: [0x0A]) := by simp
    have hparse := parseEntries_encodeMembers (e :: es) (List.cons_ne_nil _ _) hvs
      (encodeMembers (e :: es) ++ 0x7D :: [0x0A]).length
      (by
        have := length_le_encodeMembers (e :: es)
        simp only [List.length_append]
        omega) ∅ [0x0A]
    refine ⟨(e :: es).foldl (fun acc e => acc.insert e.1 e.2) ∅, ?_, fun k => ?_⟩
    · rw [hshape, skipSpace_brace]
      simp only [ne_eq, not_true_eq_false, if_false, skipSpace_encodeMembers]
      rw [encodeMembers_cons_append, appendString_cons] at hparse ⊢
      simp only [List.cons_append] at hparse ⊢
      have hd : ((0x22 : Fin 256) = 0x7D) = False := by decide
      simp only [hd, if_false, hparse, Option.map_some']
    · rw [lookup_foldl_insert _ hnd, hlook k]
      cases m.lookup k <;> rfl

/-- C10, as stated, fails: the registry maps the name `0xFF` (one byte, not
valid UTF-8). The snapshot is written without error and read back without
error into an empty mapping, which then has no entry for that name and has one
for U+FFFD instead. -/
theorem roundtrip_invalid_utf8_name :
    badNameState.pkgs.lookup [0xFF] = some ⟨ascii "bob", hR⟩ ∧
    (writeToDisk (demoEnv (demoShell (sizeWith 10) false false) false) regname
      badNameState).1 = none ∧
    (tryLoad (demoEnv (demoShell (sizeWith 10) false false) false) regname
        { (writeToDisk (demoEnv (demoShell (sizeWith 10) false false) false) regname
            badNameState).2 with pkgs := ∅ }).map
        (fun r => (r.1, r.2.pkgs.lookup [0xFF], r.2.pkgs.lookup [0xEF, 0xBF, 0xBD]))
      = some (none, none, some ⟨ascii "bob", hR⟩) := by
  decide

/-- C10, amended. For a registry mapping whose names, authors and hashes are
valid UTF-8: when `writeToDisk` writes the file without error, `tryLoad` of that
file into a registry with an empty mapping (the host letting it open the file)
returns no error and yields a mapping with the same entry, or none, for every
name. `tryLoad` of a file that does not exist returns no error and leaves the
mapping as it is. -/
theorem writeToDisk_tryLoad (env : Env) (fname : GoString) (s : State)
    (hv : entriesValid s.pkgs.entries)
    (hw : writeError env fname (encodePkgs s.pkgs) = none)
    (hopen : env.Open fname = none) :
    (writeToDisk env fname s).1 = none ∧
    (∀ t : State, t.pkgs = ∅ → t.files fname = (writeToDisk env fname s).2.files fname →
      ∃ t2, tryLoad env fname t = some (none, t2) ∧ ∀ k, t2.pkgs.lookup k = s.pkgs.lookup k) ∧
    (∀ t : State, t.files fname = none →
      ∃ t2, tryLoad env fname t = some (none, t2) ∧ t2.pkgs = t.pkgs) := by
  refine ⟨by rw [writeToDisk_fst, hw], ?_, ?_⟩
  · intro t hempty hfile
    rw [writeToDisk_files env fname s hw] at hfile
    obtain ⟨m2, hdec, hlook⟩ := decodePkgs_encodePkgs s.pkgs hv
    refine ⟨{ t.emit (.openFile fname) with pkgs := m2 }, ?_, hlook⟩
    unfold tryLoad
    simp only [hfile, hopen]
    have hp : (t.emit (.openFile fname)).pkgs = ∅ := hempty
    rw [hp, hdec]
    rfl
  · intro t hfile
    refine ⟨t.emit (.openFile fname), ?_, rfl⟩
    unfold tryLoad
    simp only [hfile]

/-- C10, amended, at the registry that maps `foo` to `hA`. -/
theorem writeToDisk_tryLoad_witness :
    (writeToDisk (demoEnv (demoShell (sizeWith 10) false false) false) regname demoState).1
      = none ∧
    (∀ t : State, t.pkgs = ∅ →
      t.files regname = (writeToDisk (demoEnv (demoShell (sizeWith 10) false false) false)
        regname demoState).2.files regname →
      ∃ t2, tryLoad (demoEnv (demoShell (sizeWith 10) false false) false) regname t
          = some (none, t2) ∧
        ∀ k, t2.pkgs.lookup k = demoState.pkgs.lookup k) ∧
    (∀ t : State, t.files regname = none →
      ∃ t2, tryLoad (demoEnv (demoShell (sizeWith 10) false false) false) regname t
          = some (none, t2) ∧ t2.pkgs = t.pkgs) :=
  writeToDisk_tryLoad (demoEnv (demoShell (sizeWith 10) false false) false) regname demoState
    (by decide) (by decide) rfl

end Gexbot
